import Mathlib

/-!
Verification of the Ride core runtime (core.js): CommandBuffer push/drain,
Scheduler flush with depth-group gating, Component staged props and diff
tickets, per-key effect cleanups, pre-ready buffering, queue, and destroy.

The JavaScript source is shallowly embedded: objects holding props are
modelled as functions `String → Option Int` (presence of a key = `some`),
the command buffer's `Map` index as an association list, promise
resolution order as explicit events, and `await` as sequential
composition.  Machine integers do not overflow in the source's regime
(counters only grow), so `Nat`/`Int` are used directly.
-/

namespace Ride

/-! ### Association list helpers (JS `Map` as insertion-ordered assoc list) -/

def alookup {β : Type} : List (String × β) → String → Option β
  | [], _ => none
  | (k, v) :: rest, key => if k = key then some v else alookup rest key

/-- `keyIndex ks n` is the index map sending the i-th key to position `n + i`,
mirroring how `CommandBuffer.index` is populated (`index.set(key, ops.length)`
in first-push order). -/
def keyIndex : List String → Nat → List (String × Nat)
  | [], _ => []
  | k :: ks, n => (k, n) :: keyIndex ks (n + 1)

theorem keyIndex_append (l1 l2 : List String) (n : Nat) :
    keyIndex (l1 ++ l2) n = keyIndex l1 n ++ keyIndex l2 (n + l1.length) := by
  induction l1 generalizing n with
  | nil => simp [keyIndex]
  | cons k ks ih =>
    have h2 : n + 1 + ks.length = n + (ks.length + 1) := by omega
    simp only [List.cons_append, keyIndex, List.length_cons, List.append_eq, ih, h2]

theorem alookup_keyIndex_of_not_mem {ks : List String} {k : String} {n : Nat}
    (h : k ∉ ks) : alookup (keyIndex ks n) k = none := by
  induction ks generalizing n with
  | nil => rfl
  | cons a as ih =>
    simp only [keyIndex, alookup]
    rw [if_neg, ih]
    · intro hmem; exact h (List.mem_cons_of_mem _ hmem)
    · intro hak; exact h (hak ▸ List.mem_cons_self a as)

theorem alookup_keyIndex_isSome_of_mem {ks : List String} {k : String} {n : Nat}
    (h : k ∈ ks) : (alookup (keyIndex ks n) k).isSome := by
  induction ks generalizing n with
  | nil => cases h
  | cons a as ih =>
    simp only [keyIndex, alookup]
    by_cases hak : a = k
    · rw [if_pos hak]; rfl
    · rw [if_neg hak]
      exact ih (by cases h with
        | head => exact absurd rfl hak
        | tail _ hm => exact hm)

theorem alookup_keyIndex_get {ks : List String} {k : String} {n i : Nat}
    (h : alookup (keyIndex ks n) k = some i) :
    n ≤ i ∧ ks[i - n]? = some k := by
  induction ks generalizing n with
  | nil => simp [keyIndex, alookup] at h
  | cons a as ih =>
    simp only [keyIndex, alookup] at h
    by_cases hak : a = k
    · rw [if_pos hak] at h
      cases h
      constructor
      · exact le_refl _
      · simp [hak]
    · rw [if_neg hak] at h
      obtain ⟨h1, h2⟩ := ih h
      constructor
      · omega
      · have : i - n = (i - (n + 1)) + 1 := by omega
        rw [this]
        simpa using h2

/-! ### Generic list lemmas used for positional updates -/

theorem getq_some_mem {α : Type} : ∀ (l : List α) (i : Nat) (a : α),
    l[i]? = some a → a ∈ l
  | [], i, a, h => by simp at h
  | x :: xs, 0, a, h => by
    simp at h; exact h ▸ List.mem_cons_self x xs
  | x :: xs, i + 1, a, h => by
    simp only [List.getElem?_cons_succ] at h
    exact List.mem_cons_of_mem _ (getq_some_mem xs i a h)

theorem set_same {α : Type} : ∀ (l : List α) (i : Nat) (a : α),
    l[i]? = some a → l.set i a = l
  | [], _, _, h => by simp at h
  | x :: xs, 0, a, h => by simp at h; simp [h]
  | x :: xs, i + 1, a, h => by
    simp only [List.getElem?_cons_succ] at h
    simp [List.set, set_same xs i a h]

theorem getq_map {α β : Type} (f : α → β) : ∀ (l : List α) (i : Nat),
    (l.map f)[i]? = (l[i]?).map f
  | [], _ => by simp
  | x :: xs, 0 => by simp
  | x :: xs, i + 1 => by simp [getq_map f xs i]

theorem filter_eq_nil_of_forall {α : Type} {p : α → Bool} :
    ∀ {l : List α}, (∀ x ∈ l, p x = false) → l.filter p = []
  | [], _ => rfl
  | x :: xs, h => by
    simp only [List.filter]
    rw [h x (List.mem_cons_self x xs), filter_eq_nil_of_forall (fun y hy => h y (List.mem_cons_of_mem _ hy))]

/-- In a list whose image under `f` has no duplicates, filtering for the image
of the element at position `i` returns exactly that element. -/
theorem filter_eq_single_of_nodup {α β : Type} [DecidableEq β] (f : α → β) :
    ∀ (l : List α) (i : Nat) (a : α) (v : β), (l.map f).Nodup → l[i]? = some a → f a = v →
      l.filter (fun x => f x = v) = [a]
  | [], i, a, v, _, h, _ => by simp at h
  | x :: xs, 0, a, v, hnd, h, hv => by
    simp at h
    subst h
    subst hv
    simp only [List.map_cons, List.nodup_cons] at hnd
    rw [List.filter_cons, if_pos (by simp)]
    congr 1
    exact filter_eq_nil_of_forall (fun y hy => by
      simp only [decide_eq_false_iff_not]
      intro hfy
      exact hnd.1 (hfy ▸ List.mem_map_of_mem f hy))
  | x :: xs, i + 1, a, v, hnd, h, hv => by
    simp only [List.getElem?_cons_succ] at h
    simp only [List.map_cons, List.nodup_cons] at hnd
    have hne : f x ≠ v := fun hxa =>
      hnd.1 ((hxa.trans hv.symm) ▸ List.mem_map_of_mem f (getq_some_mem xs i a h))
    rw [List.filter_cons, if_neg (by simp [hne]), filter_eq_single_of_nodup f xs i a v hnd.2 h hv]

theorem filter_set_of_ne {α : Type} {p : α → Bool} :
    ∀ (l : List α) (i : Nat) (a b : α), l[i]? = some a → p a = false → p b = false →
      (l.set i b).filter p = l.filter p
  | [], _, _, _, h, _, _ => by simp at h
  | x :: xs, 0, a, b, h, ha, hb => by
    simp at h
    subst h
    simp [List.filter, ha, hb]
  | x :: xs, i + 1, a, b, h, ha, hb => by
    simp only [List.getElem?_cons_succ] at h
    simp [List.set, List.filter, filter_set_of_ne xs i a b h ha hb]

theorem filter_set_single {α β : Type} [DecidableEq β] (f : α → β) :
    ∀ (l : List α) (i : Nat) (a b : α) (v : β), (l.map f).Nodup → l[i]? = some a →
      f a = v → f b = v → (l.set i b).filter (fun x => f x = v) = [b]
  | [], i, a, b, v, _, h, _, _ => by simp at h
  | x :: xs, 0, a, b, v, hnd, h, hav, hbv => by
    simp at h
    subst h
    subst hav
    simp only [List.map_cons, List.nodup_cons] at hnd
    simp only [List.set]
    rw [List.filter_cons, if_pos (by simp [hbv])]
    congr 1
    exact filter_eq_nil_of_forall (fun y hy => by
      simp only [decide_eq_false_iff_not]
      intro hfy
      exact hnd.1 (hfy ▸ List.mem_map_of_mem f hy))
  | x :: xs, i + 1, a, b, v, hnd, h, hav, hbv => by
    simp only [List.getElem?_cons_succ] at h
    simp only [List.map_cons, List.nodup_cons] at hnd
    have hne : f x ≠ v := fun hxa =>
      hnd.1 ((hxa.trans hav.symm) ▸ List.mem_map_of_mem f (getq_some_mem xs i a h))
    simp only [List.set]
    rw [List.filter_cons, if_neg (by simp [hne]), filter_set_single f xs i a b v hnd.2 h hav hbv]

theorem mem_of_mem_set {α : Type} :
    ∀ (l : List α) (i : Nat) (a x : α), x ∈ l.set i a → x ∈ l ∨ x = a
  | [], _, _, _, h => Or.inl h
  | y :: ys, 0, a, x, h => by
    simp only [List.set] at h
    cases h with
    | head => exact Or.inr rfl
    | tail _ hm => exact Or.inl (List.mem_cons_of_mem _ hm)
  | y :: ys, i + 1, a, x, h => by
    simp only [List.set] at h
    cases h with
    | head => exact Or.inl (List.mem_cons_self _ _)
    | tail _ hm =>
      cases mem_of_mem_set ys i a x hm with
      | inl h1 => exact Or.inl (List.mem_cons_of_mem _ h1)
      | inr h1 => exact Or.inr h1

/-! ### CommandBuffer: ops, push, coalescing (core.js lines 34-77) -/

/-- An op as built by `CommandBuffer.push`: `{ type, key, payload, priority,
generation, sequence }`.  `priority` is `Option Int` because `push` defaults
it to `null`. -/
structure Op (α : Type) where
  type : String
  key : String
  payload : α
  priority : Option Int
  generation : Nat
  sequence : Nat
deriving DecidableEq

/-- The argument object of `CommandBuffer.push`.  A `squashWith` callback
receives `(prevPayload, newPayload, prevOp, newOp)`. -/
structure PushArgs (α : Type) where
  type : String
  key : String
  payload : α
  priority : Option Int
  squashWith : Option (α → α → Op α → Op α → α)

/-- `CommandBuffer` state: `{ generation, ops, index, size, sequence }`.
The `Map` index is an insertion-ordered association list from coalesce key
to position in `ops`. -/
structure Buffer (α : Type) where
  generation : Nat
  ops : List (Op α)
  index : List (String × Nat)
  size : Nat
  sequence : Nat
deriving DecidableEq

def Buffer.empty {α : Type} : Buffer α := ⟨0, [], [], 0, 0⟩

/-- The fresh op a push builds (`newOp` in the source), with the sequence
counter already incremented (`++this.sequence`). -/
def mkNewOp {α : Type} (g seq : Nat) (a : PushArgs α) : Op α :=
  ⟨a.type, a.key, a.payload, a.priority, g, seq⟩

/-- `CommandBuffer.push` (source lines 46-77), for arguments whose `type` and
`key` are non-empty (the source throws otherwise; the guards live in
`pushChecked` below).  If the key is absent from the index the op is
appended; otherwise the existing op is replaced in place by the new op with
squashed payload and the original sequence. -/
def Buffer.push {α : Type} (b : Buffer α) (a : PushArgs α) : Buffer α :=
  let newOp := mkNewOp b.generation (b.sequence + 1) a
  match alookup b.index a.key with
  | none =>
    { b with index := b.index ++ [(a.key, b.ops.length)]
           , ops := b.ops ++ [newOp]
           , size := b.size + 1
           , sequence := b.sequence + 1 }
  | some i =>
    match b.ops[i]? with
    | none => { b with sequence := b.sequence + 1 }
    | some existing =>
      let merged := match a.squashWith with
        | some f => f existing.payload a.payload existing newOp
        | none => a.payload
      { b with ops := b.ops.set i { newOp with payload := merged, sequence := existing.sequence }
             , sequence := b.sequence + 1 }

/-- The dead `none` inner branch of `push` is unreachable for well-formed
buffers (`Buffer.WF` below); it models the source reading `this.ops[idx]`
out of range, which cannot happen since the index always points into `ops`. -/
def pushList {α : Type} (b : Buffer α) (as : List (PushArgs α)) : Buffer α :=
  as.foldl Buffer.push b

/-- Well-formedness maintained by the source: the index maps each key to the
position of the op carrying it, keys are unique, and `size` mirrors
`ops.length`. -/
def Buffer.WF {α : Type} (b : Buffer α) : Prop :=
  b.index = keyIndex (b.ops.map Op.key) 0
  ∧ (b.ops.map Op.key).Nodup
  ∧ b.size = b.ops.length

theorem empty_WF {α : Type} : (Buffer.empty (α := α)).WF := by
  refine ⟨rfl, List.nodup_nil, rfl⟩

theorem WF_index_some {α : Type} {b : Buffer α} (hWF : b.WF) {k : String} {i : Nat}
    (h : alookup b.index k = some i) :
    ∃ o : Op α, b.ops[i]? = some o ∧ o.key = k := by
  rw [hWF.1] at h
  obtain ⟨_, hget⟩ := alookup_keyIndex_get h
  simp only [Nat.sub_zero] at hget
  rw [getq_map Op.key] at hget
  cases hops : b.ops[i]? with
  | none => rw [hops] at hget; simp at hget
  | some o =>
    rw [hops] at hget
    simp at hget
    exact ⟨o, rfl, hget⟩

theorem WF_index_none {α : Type} {b : Buffer α} (hWF : b.WF) {k : String}
    (h : alookup b.index k = none) : k ∉ b.ops.map Op.key := by
  intro hmem
  have := alookup_keyIndex_isSome_of_mem (n := 0) hmem
  rw [← hWF.1, h] at this
  simp at this

/-- The op stored when a push coalesces onto an existing op `o`: the new op's
fields, the squashed payload, and the original sequence (source lines 67-76). -/
def coalescedOp {α : Type} (g seq : Nat) (o : Op α) (a : PushArgs α) : Op α :=
  { mkNewOp g seq a with
      payload := match a.squashWith with
        | some f => f o.payload a.payload o (mkNewOp g seq a)
        | none => a.payload
    , sequence := o.sequence }

theorem push_none_eq {α : Type} (b : Buffer α) (a : PushArgs α)
    (hidx : alookup b.index a.key = none) :
    b.push a = { b with index := b.index ++ [(a.key, b.ops.length)]
                      , ops := b.ops ++ [mkNewOp b.generation (b.sequence + 1) a]
                      , size := b.size + 1
                      , sequence := b.sequence + 1 } := by
  unfold Buffer.push
  rw [hidx]

theorem push_some_eq {α : Type} (b : Buffer α) (a : PushArgs α) {i : Nat} {o : Op α}
    (hidx : alookup b.index a.key = some i) (hops : b.ops[i]? = some o) :
    b.push a = { b with ops := b.ops.set i (coalescedOp b.generation (b.sequence + 1) o a)
                      , sequence := b.sequence + 1 } := by
  unfold Buffer.push
  rw [hidx]
  dsimp only
  rw [hops]
  rfl

theorem WF_push {α : Type} (b : Buffer α) (a : PushArgs α) (hWF : b.WF) :
    (b.push a).WF := by
  cases hidx : alookup b.index a.key with
  | none =>
    have hnot : a.key ∉ b.ops.map Op.key := WF_index_none hWF hidx
    rw [push_none_eq b a hidx]
    refine ⟨?_, ?_, ?_⟩
    · simp only [List.map_append, List.map_cons, List.map_nil, keyIndex_append]
      rw [hWF.1]
      simp [keyIndex, mkNewOp]
    · simp only [List.map_append, List.map_cons, List.map_nil, mkNewOp]
      rw [List.nodup_append]
      exact ⟨hWF.2.1, List.nodup_singleton _, by simpa using fun h => hnot h⟩
    · simp [hWF.2.2]
  | some i =>
    obtain ⟨o, hops, hkey⟩ := WF_index_some hWF hidx
    rw [push_some_eq b a hidx hops]
    have hkeys : (b.ops.set i (coalescedOp b.generation (b.sequence + 1) o a)).map Op.key
        = b.ops.map Op.key := by
      rw [List.map_set]
      have : Op.key (coalescedOp b.generation (b.sequence + 1) o a) = a.key := rfl
      rw [this]
      apply set_same
      rw [getq_map Op.key, hops]
      simp [hkey]
    refine ⟨?_, ?_, ?_⟩
    · rw [hkeys]; exact hWF.1
    · rw [hkeys]; exact hWF.2.1
    · simp [hWF.2.2]

theorem WF_pushList {α : Type} (as : List (PushArgs α)) :
    ∀ (b : Buffer α), b.WF → (pushList b as).WF := by
  induction as with
  | nil => intro b h; exact h
  | cons a rest ih =>
    intro b h
    exact ih (b.push a) (WF_push b a h)

theorem push_generation {α : Type} (b : Buffer α) (a : PushArgs α) :
    (b.push a).generation = b.generation := by
  cases hidx : alookup b.index a.key with
  | none => rw [push_none_eq b a hidx]
  | some i =>
    cases hops : b.ops[i]? with
    | none => unfold Buffer.push; rw [hidx]; dsimp only; rw [hops]
    | some o => rw [push_some_eq b a hidx hops]

theorem push_sequence {α : Type} (b : Buffer α) (a : PushArgs α) :
    (b.push a).sequence = b.sequence + 1 := by
  cases hidx : alookup b.index a.key with
  | none => rw [push_none_eq b a hidx]
  | some i =>
    cases hops : b.ops[i]? with
    | none => unfold Buffer.push; rw [hidx]; dsimp only; rw [hops]
    | some o => rw [push_some_eq b a hidx hops]

/-! ### C1: per-key coalescing across a sequence of pushes -/

/-- Pair each push with the sequence number `++this.sequence` assigns to it,
starting from counter value `s`. -/
def seqPushes {α : Type} : Nat → List (PushArgs α) → List (PushArgs α × Nat)
  | _, [] => []
  | s, a :: rest => (a, s + 1) :: seqPushes (s + 1) rest

/-- Left fold of coalescing pushes (with their assigned sequence numbers) onto
a current op: each step replaces the op by `coalescedOp`, i.e. squashes the
payload, keeps the original sequence, and adopts the new priority. -/
def coalesceFold {α : Type} (g : Nat) : Op α → List (PushArgs α × Nat) → Op α
  | cur, [] => cur
  | cur, an :: rest => coalesceFold g (coalescedOp g an.2 cur an.1) rest

/-- Abstract single-key state: `none` if no op with the key exists yet. -/
def evolve {α : Type} (g : Nat) : Option (Op α) → List (PushArgs α × Nat) → Option (Op α)
  | cur, [] => cur
  | none, an :: rest => evolve g (some (mkNewOp g an.2 an.1)) rest
  | some o, an :: rest => evolve g (some (coalescedOp g an.2 o an.1)) rest

theorem evolve_none_cons {α : Type} (g : Nat) (an : PushArgs α × Nat)
    (rest : List (PushArgs α × Nat)) :
    evolve g none (an :: rest) = evolve g (some (mkNewOp g an.2 an.1)) rest := rfl

theorem evolve_some {α : Type} (g : Nat) :
    ∀ (l : List (PushArgs α × Nat)) (o : Op α), evolve g (some o) l = some (coalesceFold g o l)
  | [], o => rfl
  | an :: rest, o => evolve_some g rest (coalescedOp g an.2 o an.1)

theorem coalesceFold_sequence {α : Type} (g : Nat) :
    ∀ (l : List (PushArgs α × Nat)) (o : Op α), (coalesceFold g o l).sequence = o.sequence
  | [], o => rfl
  | an :: rest, o => coalesceFold_sequence g rest (coalescedOp g an.2 o an.1)

theorem coalesceFold_priority {α : Type} (g : Nat) :
    ∀ (l : List (PushArgs α × Nat)) (o : Op α), (coalesceFold g o l).priority
      = (match l.getLast? with | some an => an.1.priority | none => o.priority)
  | [], o => rfl
  | an :: rest, o => by
    rw [coalesceFold, coalesceFold_priority g rest]
    cases rest with
    | nil => rfl
    | cons b bs =>
      cases hl : (b :: bs).getLast? with
      | none => simp at hl
      | some x => rw [List.getLast?_cons_cons, hl]

theorem push_filter_ne {α : Type} (b : Buffer α) (a : PushArgs α) (k : String)
    (hWF : b.WF) (hne : a.key ≠ k) :
    (b.push a).ops.filter (fun o => o.key = k) = b.ops.filter (fun o => o.key = k) := by
  cases hidx : alookup b.index a.key with
  | none =>
    rw [push_none_eq b a hidx]
    simp only [List.filter_append]
    have h1 : [mkNewOp b.generation (b.sequence + 1) a].filter (fun o => o.key = k) = [] := by
      simp [List.filter, mkNewOp, hne]
    simp [h1]
  | some i =>
    obtain ⟨o, hops, hkey⟩ := WF_index_some hWF hidx
    rw [push_some_eq b a hidx hops]
    exact filter_set_of_ne b.ops i o _ hops (by simp [hkey, hne])
      (by simp [coalescedOp, mkNewOp, hne])

theorem push_filter_new {α : Type} (b : Buffer α) (a : PushArgs α) (hWF : b.WF)
    (habs : alookup b.index a.key = none) :
    (b.push a).ops.filter (fun o => o.key = a.key)
      = [mkNewOp b.generation (b.sequence + 1) a] := by
  rw [push_none_eq b a habs]
  dsimp only
  rw [List.filter_append]
  have h1 : b.ops.filter (fun o => o.key = a.key) = [] :=
    filter_eq_nil_of_forall (fun o ho => by
      have hnot := WF_index_none hWF habs
      simp only [decide_eq_false_iff_not]
      intro hk
      exact hnot (hk ▸ List.mem_map_of_mem Op.key ho))
  rw [h1]
  simp [mkNewOp]

theorem push_filter_coalesce {α : Type} (b : Buffer α) (a : PushArgs α) {i : Nat} {o : Op α}
    (hWF : b.WF) (hidx : alookup b.index a.key = some i) (hops : b.ops[i]? = some o) :
    (b.push a).ops.filter (fun x => x.key = a.key)
      = [coalescedOp b.generation (b.sequence + 1) o a] := by
  have hkey : o.key = a.key := by
    obtain ⟨o2, hops2, hkey2⟩ := WF_index_some hWF hidx
    rw [hops2] at hops
    cases hops
    exact hkey2
  rw [push_some_eq b a hidx hops]
  exact filter_set_single Op.key b.ops i o _ a.key hWF.2.1 hops hkey rfl

theorem filter_eq_nil_alookup_none {α : Type} {b : Buffer α} (hWF : b.WF) {k : String}
    (h : b.ops.filter (fun o => o.key = k) = []) : alookup b.index k = none := by
  cases hidx : alookup b.index k with
  | none => rfl
  | some i =>
    obtain ⟨o, hops, hkey⟩ := WF_index_some hWF hidx
    have : o ∈ b.ops.filter (fun x => x.key = k) :=
      List.mem_filter.mpr ⟨getq_some_mem _ _ _ hops, by simp [hkey]⟩
    rw [h] at this
    cases this

theorem filter_eq_single_alookup {α : Type} {b : Buffer α} (hWF : b.WF) {k : String}
    {o : Op α} (h : b.ops.filter (fun x => x.key = k) = [o]) :
    ∃ i, alookup b.index k = some i ∧ b.ops[i]? = some o := by
  have ho : o ∈ b.ops ∧ o.key = k := by
    have : o ∈ b.ops.filter (fun x => x.key = k) := h ▸ List.mem_cons_self o []
    have h2 := List.mem_filter.mp this
    exact ⟨h2.1, by simpa using h2.2⟩
  have hmem : k ∈ b.ops.map Op.key := ho.2 ▸ List.mem_map_of_mem Op.key ho.1
  have hsome := alookup_keyIndex_isSome_of_mem (n := 0) hmem
  rw [← hWF.1] at hsome
  cases hidx : alookup b.index k with
  | none => rw [hidx] at hsome; cases hsome
  | some i =>
    obtain ⟨o2, hops, hkey⟩ := WF_index_some hWF hidx
    have : b.ops.filter (fun x => x.key = k) = [o2] :=
      filter_eq_single_of_nodup Op.key b.ops i o2 k hWF.2.1 hops hkey
    rw [h] at this
    cases this
    exact ⟨i, rfl, hops⟩

/-- Single-key evolution of the buffer under an arbitrary push sequence:
the (at most one) op holding key `k` evolves exactly by `evolve` over the
pushes that target `k`, with their globally assigned sequence numbers. -/
theorem pushList_filter_evolve {α : Type} (ps : List (PushArgs α)) :
    ∀ (b : Buffer α) (k : String) (cur : Option (Op α)), b.WF →
      b.ops.filter (fun o => o.key = k) = (match cur with | none => [] | some o => [o]) →
      (pushList b ps).ops.filter (fun o => o.key = k)
        = (match evolve b.generation cur
              ((seqPushes b.sequence ps).filter (fun an => an.1.key = k)) with
           | none => [] | some o => [o]) := by
  induction ps with
  | nil =>
    intro b k cur _ hcur
    cases cur <;> simpa [pushList, seqPushes, evolve] using hcur
  | cons a rest ih =>
    intro b k cur hWF hcur
    have hWF2 := WF_push b a hWF
    have hg := push_generation b a
    have hs := push_sequence b a
    by_cases hak : a.key = k
    · subst hak
      cases cur with
      | none =>
        have habs : alookup b.index a.key = none := filter_eq_nil_alookup_none hWF hcur
        have h1 := push_filter_new b a hWF habs
        have h2 := ih (b.push a) a.key (some (mkNewOp b.generation (b.sequence + 1) a)) hWF2 h1
        rw [pushList, List.foldl_cons, ← pushList]
        rw [h2, hg, hs]
        simp [seqPushes, List.filter_cons, evolve]
      | some o =>
        obtain ⟨i, hidx, hops⟩ := filter_eq_single_alookup hWF hcur
        have h1 := push_filter_coalesce b a hWF hidx hops
        have h2 := ih (b.push a) a.key (some (coalescedOp b.generation (b.sequence + 1) o a)) hWF2 h1
        rw [pushList, List.foldl_cons, ← pushList]
        rw [h2, hg, hs]
        simp [seqPushes, List.filter_cons, evolve]
    · have h1 := push_filter_ne b a k hWF hak
      have h2 := ih (b.push a) k cur hWF2 (h1.trans hcur)
      rw [pushList, List.foldl_cons, ← pushList]
      rw [h2, hg, hs]
      simp [seqPushes, List.filter_cons, hak]

/-- C1: in any buffer produced by a sequence of `push` calls, keys are unique
(at most one op per key); when a key `k` is pushed at least once, the unique
op for `k` equals the left fold `coalesceFold` of all pushes for `k` over the
op created by the first push for `k` (each step squashing the payload with
that push's `squashWith`, or replacing it when absent); the op keeps the
sequence assigned to the first push with that key, and carries the priority
of the last push with that key. -/
theorem c1_push_coalescing {α : Type} (ps : List (PushArgs α)) (k : String)
    (first : PushArgs α × Nat) (rest : List (PushArgs α × Nat))
    (hk : (seqPushes 0 ps).filter (fun an => an.1.key = k) = first :: rest) :
    ((pushList Buffer.empty ps).ops.map Op.key).Nodup
    ∧ (pushList Buffer.empty ps).ops.filter (fun o => o.key = k)
        = [coalesceFold 0 (mkNewOp 0 first.2 first.1) rest]
    ∧ (coalesceFold 0 (mkNewOp 0 first.2 first.1) rest).sequence = first.2
    ∧ (coalesceFold 0 (mkNewOp 0 first.2 first.1) rest).priority
        = (match rest.getLast? with | some an => an.1.priority | none => first.1.priority) := by
  have hWF := WF_pushList ps (Buffer.empty (α := α)) empty_WF
  refine ⟨hWF.2.1, ?_, coalesceFold_sequence 0 rest _, coalesceFold_priority 0 rest _⟩
  have h := pushList_filter_evolve ps Buffer.empty k none empty_WF rfl
  have hseq : (Buffer.empty (α := α)).sequence = 0 := rfl
  have hgen : (Buffer.empty (α := α)).generation = 0 := rfl
  rw [hseq, hgen, hk, evolve_none_cons, evolve_some] at h
  exact h

def c1ps : List (PushArgs Int) :=
  [⟨"tick", "A", 1, some 10, none⟩,
   ⟨"tick", "B", 5, some 5, none⟩,
   ⟨"tick", "A", 2, some 0, some (fun p q _ _ => p + q)⟩]

def c1first : PushArgs Int × Nat := (⟨"tick", "A", 1, some 10, none⟩, 1)

def c1rest : List (PushArgs Int × Nat) :=
  [(⟨"tick", "A", 2, some 0, some (fun p q _ _ => p + q)⟩, 3)]

theorem c1_push_coalescing_witness :
    ((pushList Buffer.empty c1ps).ops.map Op.key).Nodup
    ∧ (pushList Buffer.empty c1ps).ops.filter (fun o => o.key = "A")
        = [coalesceFold 0 (mkNewOp 0 c1first.2 c1first.1) c1rest]
    ∧ (coalesceFold 0 (mkNewOp 0 c1first.2 c1first.1) c1rest).sequence = c1first.2
    ∧ (coalesceFold 0 (mkNewOp 0 c1first.2 c1first.1) c1rest).priority
        = (match c1rest.getLast? with | some an => an.1.priority | none => c1first.1.priority) :=
  c1_push_coalescing c1ps "A" c1first c1rest rfl

/-! ### C2: drain (core.js lines 85-119) -/

/-- Effective priority used by the drain comparator: `op.priority ?? 0`. -/
def opPr {α : Type} (o : Op α) : Int := o.priority.getD 0

/-- The drain sort order `(pa - pb) || (a.sequence - b.sequence)`:
priority ascending, then sequence ascending. -/
def opLe {α : Type} (x y : Op α) : Prop :=
  opPr x < opPr y ∨ (opPr x = opPr y ∧ x.sequence ≤ y.sequence)

instance {α : Type} : DecidableRel (opLe (α := α)) := fun x y => by
  unfold opLe; infer_instance

instance {α : Type} : IsTotal (Op α) opLe where
  total a b := by
    rcases lt_trichotomy (opPr a) (opPr b) with h | h | h
    · exact Or.inl (Or.inl h)
    · rcases Nat.le_total a.sequence b.sequence with h2 | h2
      · exact Or.inl (Or.inr ⟨h, h2⟩)
      · exact Or.inr (Or.inr ⟨h.symm, h2⟩)
    · exact Or.inr (Or.inl h)

instance {α : Type} : IsTrans (Op α) opLe where
  trans a b c hab hbc := by
    rcases hab with h1 | ⟨h1, h2⟩ <;> rcases hbc with h3 | ⟨h3, h4⟩
    · exact Or.inl (lt_trans h1 h3)
    · exact Or.inl (by rw [← h3]; exact h1)
    · exact Or.inl (by rw [h1]; exact h3)
    · exact Or.inr ⟨h1.trans h3, le_trans h2 h4⟩

structure DrainResult (α : Type) where
  buffer : Buffer α
  executed : List (Op α)
  drained : Bool

/-- The push arguments used when `drain` requeues a leftover snapshot op:
`{ type, key, payload, priority: lf.priority ?? 0, squashWith: null }`. -/
def requeueArg {α : Type} (o : Op α) : PushArgs α :=
  ⟨o.type, o.key, o.payload, some (o.priority.getD 0), none⟩

/-- The buffer after `drain` clears the live buffer and index
(`ops.length = 0; index.clear(); size = 0`). -/
def clearedBuffer {α : Type} (b : Buffer α) : Buffer α :=
  { b with ops := [], index := [], size := 0 }

/-- `this.size = this.ops.length` after a completed drain. -/
def setSize {α : Type} (b : Buffer α) : Buffer α := { b with size := b.ops.length }

/-- The drain loop over the sorted snapshot.  `eff op` is the list of pushes
the effect performs into the live buffer while handling `op` (queue calls made
during `await effect(op)`); `oracle n` is the value of `shouldYield()` at the
check preceding the `n`-th snapshot op. -/
def drainLoop {α : Type} (eff : Op α → List (PushArgs α)) (oracle : Nat → Bool) :
    List (Op α) → Buffer α → Nat → DrainResult α
  | [], b, _ => ⟨setSize b, [], true⟩
  | o :: rest, b, n =>
    if oracle n then
      ⟨pushList b ((o :: rest).map requeueArg), [], false⟩
    else
      let b2 := pushList b (eff o)
      let r := drainLoop eff oracle rest b2 (n + 1)
      ⟨r.buffer, o :: r.executed, r.drained⟩

/-- `CommandBuffer.drain` (source lines 85-119). -/
def Buffer.drain {α : Type} (b : Buffer α) (eff : Op α → List (PushArgs α))
    (oracle : Nat → Bool) : DrainResult α :=
  drainLoop eff oracle (List.insertionSort opLe b.ops) (clearedBuffer b) 0

/-- Index of the first oracle `true` among the next `m` checks starting at
check number `n` (`m` if none fires). -/
def yieldPt (oracle : Nat → Bool) : Nat → Nat → Nat
  | _, 0 => 0
  | n, m + 1 => if oracle n then 0 else yieldPt oracle (n + 1) m + 1

theorem yieldPt_le (oracle : Nat → Bool) : ∀ (m n : Nat), yieldPt oracle n m ≤ m
  | 0, _ => le_refl _
  | m + 1, n => by
    unfold yieldPt
    by_cases h : oracle n
    · simp [h]
    · simp only [h, if_false]
      exact Nat.succ_le_succ (yieldPt_le oracle m (n + 1))

theorem drainLoop_executed {α : Type} (eff : Op α → List (PushArgs α)) (oracle : Nat → Bool) :
    ∀ (l : List (Op α)) (b : Buffer α) (n : Nat),
      (drainLoop eff oracle l b n).executed = l.take (yieldPt oracle n l.length)
  | [], b, n => rfl
  | o :: rest, b, n => by
    rw [show (o :: rest).length = rest.length + 1 from rfl]
    unfold drainLoop yieldPt
    by_cases h : oracle n = true
    · rw [if_pos h, if_pos h]
      rfl
    · rw [if_neg h, if_neg h]
      dsimp only
      rw [List.take_succ_cons, drainLoop_executed eff oracle rest _ (n + 1)]

theorem drainLoop_drained {α : Type} (eff : Op α → List (PushArgs α)) (oracle : Nat → Bool) :
    ∀ (l : List (Op α)) (b : Buffer α) (n : Nat),
      (drainLoop eff oracle l b n).drained = true ↔ yieldPt oracle n l.length = l.length
  | [], b, n => by simp [drainLoop, yieldPt]
  | o :: rest, b, n => by
    rw [show (o :: rest).length = rest.length + 1 from rfl]
    unfold drainLoop yieldPt
    by_cases h : oracle n = true
    · rw [if_pos h, if_pos h]
      simp
    · rw [if_neg h, if_neg h]
      dsimp only
      rw [drainLoop_drained eff oracle rest _ (n + 1)]
      omega

theorem drainLoop_buffer {α : Type} (eff : Op α → List (PushArgs α)) (oracle : Nat → Bool) :
    ∀ (l : List (Op α)) (b : Buffer α) (n : Nat),
      (drainLoop eff oracle l b n).buffer =
        (if yieldPt oracle n l.length = l.length
         then setSize (pushList b ((l.take (yieldPt oracle n l.length)).flatMap eff))
         else pushList (pushList b ((l.take (yieldPt oracle n l.length)).flatMap eff))
                ((l.drop (yieldPt oracle n l.length)).map requeueArg))
  | [], b, n => by simp [drainLoop, yieldPt, pushList]
  | o :: rest, b, n => by
    rw [show (o :: rest).length = rest.length + 1 from rfl]
    unfold drainLoop yieldPt
    by_cases h : oracle n = true
    · rw [if_pos h, if_pos h, if_neg (by omega)]
      simp [pushList]
    · rw [if_neg h, if_neg h]
      dsimp only
      rw [drainLoop_buffer eff oracle rest _ (n + 1)]
      have hle := yieldPt_le oracle rest.length (n + 1)
      by_cases heq : yieldPt oracle (n + 1) rest.length = rest.length
      · rw [if_pos heq, if_pos (by omega)]
        rw [List.take_succ_cons, List.flatMap_cons]
        simp only [pushList]
        rw [List.foldl_append]
      · rw [if_neg heq, if_neg (by omega)]
        rw [List.take_succ_cons, List.flatMap_cons, List.drop_succ_cons]
        simp only [pushList]
        rw [List.foldl_append]

theorem cleared_WF {α : Type} (b : Buffer α) : (clearedBuffer b).WF :=
  ⟨rfl, List.nodup_nil, rfl⟩

theorem push_keys_cases {α : Type} (b : Buffer α) (a : PushArgs α) (hWF : b.WF) :
    (b.push a).ops.map Op.key = b.ops.map Op.key ++ [a.key]
    ∨ (b.push a).ops.map Op.key = b.ops.map Op.key := by
  cases hidx : alookup b.index a.key with
  | none =>
    left
    rw [push_none_eq b a hidx]
    simp [mkNewOp]
  | some i =>
    right
    obtain ⟨o, hops, hkey⟩ := WF_index_some hWF hidx
    rw [push_some_eq b a hidx hops]
    show (b.ops.set i (coalescedOp b.generation (b.sequence + 1) o a)).map Op.key = _
    rw [List.map_set]
    have h1 : Op.key (coalescedOp b.generation (b.sequence + 1) o a) = a.key := rfl
    rw [h1]
    apply set_same
    rw [getq_map Op.key, hops]
    simp [hkey]

theorem push_key_mem {α : Type} (b : Buffer α) (a : PushArgs α) (hWF : b.WF) :
    a.key ∈ (b.push a).ops.map Op.key := by
  cases hidx : alookup b.index a.key with
  | none =>
    rw [push_none_eq b a hidx]
    simp [mkNewOp]
  | some i =>
    obtain ⟨o, hops, hkey⟩ := WF_index_some hWF hidx
    rcases push_keys_cases b a hWF with h | h
    · rw [h]; simp
    · rw [h]
      exact hkey ▸ List.mem_map_of_mem Op.key (getq_some_mem _ _ _ hops)

theorem keys_mono_push {α : Type} (b : Buffer α) (a : PushArgs α) (hWF : b.WF) {k : String}
    (h : k ∈ b.ops.map Op.key) : k ∈ (b.push a).ops.map Op.key := by
  rcases push_keys_cases b a hWF with h1 | h1 <;> rw [h1]
  · exact List.mem_append_left _ h
  · exact h

theorem keys_mono_pushList {α : Type} (as : List (PushArgs α)) :
    ∀ (b : Buffer α), b.WF → ∀ {k : String},
      k ∈ b.ops.map Op.key → k ∈ (pushList b as).ops.map Op.key := by
  induction as with
  | nil => intro b _ k h; exact h
  | cons a rest ih =>
    intro b hWF k h
    exact ih (b.push a) (WF_push b a hWF) (keys_mono_push b a hWF h)

theorem pushList_keys_mem {α : Type} (as : List (PushArgs α)) :
    ∀ (b : Buffer α), b.WF → ∀ a ∈ as, a.key ∈ (pushList b as).ops.map Op.key := by
  induction as with
  | nil => intro b _ a h; cases h
  | cons x rest ih =>
    intro b hWF a h
    cases h with
    | head =>
      exact keys_mono_pushList rest (b.push x) (WF_push b x hWF) (push_key_mem b x hWF)
    | tail _ hm =>
      exact ih (b.push x) (WF_push b x hWF) a hm

/-- C2: `drain(effect, shouldYield)` snapshots the ops sorted by
(priority ascending with missing priority as 0, then sequence ascending),
clears the live buffer, and passes snapshot ops to the effect in that order
until the first `shouldYield()`; it returns `true` exactly when the whole
snapshot ran; only snapshot ops (never ops pushed by effects during this
drain) are executed; on a yield every remaining snapshot op is re-pushed so
its key is present in the live buffer; on completion the live buffer holds
exactly the pushes performed by the effects. -/
theorem c2_drain_spec {α : Type} (b : Buffer α) (eff : Op α → List (PushArgs α))
    (oracle : Nat → Bool) (hWF : b.WF) :
    (b.drain eff oracle).executed
        = (List.insertionSort opLe b.ops).take
            (yieldPt oracle 0 (List.insertionSort opLe b.ops).length)
    ∧ ((b.drain eff oracle).drained = true
        ↔ (b.drain eff oracle).executed = List.insertionSort opLe b.ops)
    ∧ List.Sorted opLe (b.drain eff oracle).executed
    ∧ (∀ o ∈ (b.drain eff oracle).executed, o ∈ b.ops)
    ∧ ((b.drain eff oracle).drained = false →
        ∀ o ∈ (List.insertionSort opLe b.ops).drop
            (yieldPt oracle 0 (List.insertionSort opLe b.ops).length),
          o.key ∈ (b.drain eff oracle).buffer.ops.map Op.key)
    ∧ ((b.drain eff oracle).drained = true →
        (b.drain eff oracle).buffer
          = setSize (pushList (clearedBuffer b) ((b.drain eff oracle).executed.flatMap eff))) := by
  rw [show b.drain eff oracle
      = drainLoop eff oracle (List.insertionSort opLe b.ops) (clearedBuffer b) 0 from rfl]
  have hex := drainLoop_executed eff oracle (List.insertionSort opLe b.ops) (clearedBuffer b) 0
  have hdr := drainLoop_drained eff oracle (List.insertionSort opLe b.ops) (clearedBuffer b) 0
  have hbuf := drainLoop_buffer eff oracle (List.insertionSort opLe b.ops) (clearedBuffer b) 0
  have hyle := yieldPt_le oracle (List.insertionSort opLe b.ops).length 0
  refine ⟨hex, ?_, ?_, ?_, ?_, ?_⟩
  · rw [hdr, hex]
    constructor
    · intro hy
      rw [hy]
      exact List.take_length _
    · intro ht
      have hlen := congrArg List.length ht
      rw [List.length_take] at hlen
      omega
  · rw [hex]
    exact List.Pairwise.sublist (List.take_sublist _ _) (List.sorted_insertionSort opLe b.ops)
  · intro o ho
    rw [hex] at ho
    exact (List.perm_insertionSort opLe b.ops).subset (List.take_subset _ _ ho)
  · intro hnd o ho
    have hy : ¬ (yieldPt oracle 0 (List.insertionSort opLe b.ops).length
        = (List.insertionSort opLe b.ops).length) := by
      intro hcontra
      have h2 := hdr.mpr hcontra
      rw [h2] at hnd
      exact Bool.noConfusion hnd
    rw [hbuf, if_neg hy]
    exact pushList_keys_mem _ _ (WF_pushList _ _ (cleared_WF b)) (requeueArg o)
      (List.mem_map_of_mem requeueArg ho)
  · intro hd
    rw [hbuf, if_pos (hdr.mp hd), hex]

def c2buf : Buffer Int :=
  pushList Buffer.empty
    [⟨"a", "A", 1, some 10, none⟩, ⟨"b", "B", 2, some 5, none⟩]

def c2oracle : Nat → Bool := fun n => decide (1 ≤ n)

theorem c2_drain_witness :
    (c2buf.drain (fun _ => []) c2oracle).executed
        = (List.insertionSort opLe c2buf.ops).take
            (yieldPt c2oracle 0 (List.insertionSort opLe c2buf.ops).length)
    ∧ ((c2buf.drain (fun _ => []) c2oracle).drained = true
        ↔ (c2buf.drain (fun _ => []) c2oracle).executed = List.insertionSort opLe c2buf.ops)
    ∧ List.Sorted opLe (c2buf.drain (fun _ => []) c2oracle).executed
    ∧ (∀ o ∈ (c2buf.drain (fun _ => []) c2oracle).executed, o ∈ c2buf.ops)
    ∧ ((c2buf.drain (fun _ => []) c2oracle).drained = false →
        ∀ o ∈ (List.insertionSort opLe c2buf.ops).drop
            (yieldPt c2oracle 0 (List.insertionSort opLe c2buf.ops).length),
          o.key ∈ (c2buf.drain (fun _ => []) c2oracle).buffer.ops.map Op.key)
    ∧ ((c2buf.drain (fun _ => []) c2oracle).drained = true →
        (c2buf.drain (fun _ => []) c2oracle).buffer
          = setSize (pushList (clearedBuffer c2buf)
              ((c2buf.drain (fun _ => []) c2oracle).executed.flatMap (fun _ => [])))) :=
  c2_drain_spec c2buf (fun _ => []) c2oracle (by unfold Buffer.WF; decide)

/-! ### C7: Scheduler.flush with depth-group gating (core.js lines 177-343)

The model covers the claim's premise (no component uses `subtree` locality):
with every component in `depth` mode, `_localityRoot` is always null, the
local queue is never populated, and `shouldYieldBetweenComponents` reduces to
the depth-group check followed by `shouldYield()`.  Wall-clock time is
modelled as a counter that advances by one per executed effect; `shouldYield`
is `budget ≤ elapsed` for a finite budget and constantly false otherwise
(`frameBudgetMs ≤ 0` or non-finite).  `_ensureAttached` is modelled as always
succeeding and `onYield`/`requestRender` side channels are not modelled. -/

/-- `shouldYield()` of a flush whose frame started at time zero. -/
def shouldYieldB (budget : Option Nat) (t : Nat) : Bool :=
  match budget with
  | none => false
  | some b => decide (b ≤ t)

/-- A scheduled component as the flush comparator sees it, together with the
state `processOne` touches. -/
structure SComp where
  cid : Nat
  depth : Int
  cPriority : Int
  createdAt : Int
  ready : Bool
  destroyed : Bool
  hasInitialized : Bool
  cmds : Buffer Int
deriving DecidableEq

/-- Batch order: depth, then componentPriority, then creationOrder. -/
def compLe (x y : SComp) : Prop :=
  x.depth < y.depth
  ∨ (x.depth = y.depth
      ∧ (x.cPriority < y.cPriority
          ∨ (x.cPriority = y.cPriority ∧ x.createdAt ≤ y.createdAt)))

instance : DecidableRel compLe := fun x y => by
  unfold compLe; infer_instance

instance : IsTotal SComp compLe where
  total a b := by
    rcases lt_trichotomy a.depth b.depth with h | h | h
    · exact Or.inl (Or.inl h)
    · rcases lt_trichotomy a.cPriority b.cPriority with h2 | h2 | h2
      · exact Or.inl (Or.inr ⟨h, Or.inl h2⟩)
      · rcases Int.le_total a.createdAt b.createdAt with h3 | h3
        · exact Or.inl (Or.inr ⟨h, Or.inr ⟨h2, h3⟩⟩)
        · exact Or.inr (Or.inr ⟨h.symm, Or.inr ⟨h2.symm, h3⟩⟩)
      · exact Or.inr (Or.inr ⟨h.symm, Or.inl h2⟩)
    · exact Or.inr (Or.inl h)

instance : IsTrans SComp compLe where
  trans a b c hab hbc := by
    rcases hab with h1 | ⟨h1, h2⟩ <;> rcases hbc with h3 | ⟨h3, h4⟩
    · exact Or.inl (lt_trans h1 h3)
    · exact Or.inl (by rw [← h3]; exact h1)
    · exact Or.inl (by rw [h1]; exact h3)
    · rcases h2 with h2 | ⟨h2, h5⟩ <;> rcases h4 with h4 | ⟨h4, h6⟩
      · exact Or.inr ⟨h1.trans h3, Or.inl (lt_trans h2 h4)⟩
      · exact Or.inr ⟨h1.trans h3, Or.inl (by rw [← h4]; exact h2)⟩
      · exact Or.inr ⟨h1.trans h3, Or.inl (by rw [h2]; exact h4)⟩
      · exact Or.inr ⟨h1.trans h3, Or.inr ⟨h2.trans h4, le_trans h5 h6⟩⟩

/-- Why `processOne` reported a yield. -/
inductive YKind where
  | drain
  | gate
deriving DecidableEq

structure POne where
  comp : SComp
  time : Nat
  yield : Option YKind
  selfDirty : Bool
deriving DecidableEq

/-- `processOne(component, { allowDepthYield: true })` under `depth` locality
with group depth `g` (source lines 225-267): skip destroyed components, drain
a non-empty buffer against the frame budget (re-marking dirty on a partial
drain), then run the initial commit unless the depth-gated check fires. -/
def processOne (B : Option Nat) (g : Int) (c : SComp) (t : Nat) : POne :=
  if c.destroyed then ⟨c, t, none, false⟩
  else
    let afterDrain : SComp × Nat × Bool :=
      if 0 < c.cmds.size then
        let r := c.cmds.drain (fun _ => []) (fun n => shouldYieldB B (t + n))
        (⟨{ c with cmds := r.buffer }, t + r.executed.length, !r.drained⟩ : SComp × Nat × Bool)
      else (c, t, false)
    if afterDrain.2.2 then ⟨afterDrain.1, afterDrain.2.1, some YKind.drain, true⟩
    else
      let c1 := afterDrain.1
      let t1 := afterDrain.2.1
      if !c1.hasInitialized then
        if (if g = c1.depth then false else shouldYieldB B t1) then
          ⟨c1, t1, some YKind.gate, true⟩
        else
          let c2 := { c1 with hasInitialized := true }
          ⟨c2, t1, none, decide (0 < c2.cmds.size)⟩
      else ⟨c1, t1, none, false⟩

/-- How a flush ended early, if it did. -/
inductive StopReason where
  | drainY (cid : Nat)
  | gateY (cid : Nat)
  | between (cid : Nat)
deriving DecidableEq

structure FlushRes where
  completed : List Nat
  dirty : List Nat
  stop : Option StopReason
  time : Nat
deriving DecidableEq

/-- The batch loop of `flush` (source lines 269-327) restricted to `depth`
locality: process each component, requeue the remainder on a yield, and
between components yield only through `shouldYieldBetweenComponents`, which
refuses while the next depth equals the group depth. -/
def flushLoop (B : Option Nat) : List SComp → Int → Nat → List Nat → List Nat → FlushRes
  | [], _, t, comp, dirty => ⟨comp, dirty, none, t⟩
  | c :: rest, g, t, comp, dirty =>
    let r := processOne B g c t
    match r.yield with
    | some YKind.drain =>
      ⟨comp, dirty ++ [c.cid] ++ rest.map SComp.cid, some (StopReason.drainY c.cid), r.time⟩
    | some YKind.gate =>
      ⟨comp, dirty ++ [c.cid] ++ rest.map SComp.cid, some (StopReason.gateY c.cid), r.time⟩
    | none =>
      let comp2 := comp ++ [c.cid]
      let dirty2 := dirty ++ (if r.selfDirty then [c.cid] else [])
      match rest with
      | [] => ⟨comp2, dirty2, none, r.time⟩
      | c2 :: rest2 =>
        if c2.depth = g then flushLoop B (c2 :: rest2) g r.time comp2 dirty2
        else if shouldYieldB B r.time then
          ⟨comp2, dirty2 ++ (c2 :: rest2).map SComp.cid, some (StopReason.between c2.cid), r.time⟩
        else flushLoop B (c2 :: rest2) c2.depth r.time comp2 dirty2

/-- `Scheduler.flush` under `depth` locality: sort the dirty set, bail out if
any component's runtime is not ready (re-marking those dirty), then run the
batch loop with the group depth seeded from the first component. -/
def flush (B : Option Nat) (dirtySet : List SComp) (t0 : Nat) : FlushRes :=
  let batch := List.insertionSort compLe dirtySet
  match batch with
  | [] => ⟨[], [], none, t0⟩
  | c :: rest =>
    if (c :: rest).any (fun x => !x.ready) then
      ⟨[], ((c :: rest).filter (fun x => !x.ready)).map SComp.cid, none, t0⟩
    else flushLoop B (c :: rest) c.depth t0 [] []

/-- A buffer holding a single op with the given key. -/
def oneOpBuffer (k : String) : Buffer Int :=
  pushList Buffer.empty [⟨"render", k, 0, some 0, none⟩]

def c7compA : SComp := ⟨0, 0, 0, 0, true, false, true, oneOpBuffer "a"⟩

def c7compB : SComp := ⟨1, 0, 0, 1, true, false, true, oneOpBuffer "b"⟩

/-- C7 counterexample: with a frame budget of 1 and two dirty components at
the same depth 0, each holding one op, the flush executes component 0's op,
then component 1's drain yields before running anything; the flush stops
early under budget pressure with component 0 completed and component 1
deferred — a yield did occur between two components at the same depth, so
the claim's dichotomy (both completed or both deferred) fails. -/
theorem c7_depth_split_counterexample :
    (flush (some 1) [c7compA, c7compB] 0).completed = [0]
    ∧ (flush (some 1) [c7compA, c7compB] 0).dirty = [1]
    ∧ (flush (some 1) [c7compA, c7compB] 0).stop = some (StopReason.drainY 1)
    ∧ c7compA.depth = c7compB.depth := by
  refine ⟨?_, ?_, ?_, rfl⟩ <;> decide

theorem processOne_depth (B : Option Nat) (g : Int) (c : SComp) (t : Nat) :
    (processOne B g c t).comp.depth = c.depth := by
  unfold processOne
  dsimp only
  repeat' split
  all_goals rfl

theorem processOne_yield_ne_gate (B : Option Nat) (c : SComp) (t : Nat) :
    (processOne B c.depth c t).yield ≠ some YKind.gate := by
  unfold processOne
  dsimp only
  repeat' split
  all_goals simp_all

theorem flushLoop_no_gate (B : Option Nat) :
    ∀ (cs : List SComp) (g : Int) (t : Nat) (comp dirty : List Nat),
      (∀ c0 rest0, cs = c0 :: rest0 → g = c0.depth) →
      (∀ cid, (flushLoop B cs g t comp dirty).stop ≠ some (StopReason.gateY cid))
      ∧ (∀ cid, (flushLoop B cs g t comp dirty).stop = some (StopReason.between cid) →
          ∃ l1 c1 c2 l2, cs = l1 ++ c1 :: c2 :: l2 ∧ c2.cid = cid ∧ c2.depth ≠ c1.depth)
  | [], g, t, comp, dirty, _ => by
    constructor
    · intro cid h
      simp [flushLoop] at h
    · intro cid h
      simp [flushLoop] at h
  | c :: rest, g, t, comp, dirty, hg => by
    have hgc : g = c.depth := hg c rest rfl
    have hyield : (processOne B g c t).yield ≠ some YKind.gate := by
      rw [hgc]
      exact processOne_yield_ne_gate B c t
    cases hpy : (processOne B g c t).yield with
    | some k =>
      cases k with
      | drain =>
        unfold flushLoop
        dsimp only
        rw [hpy]
        constructor
        · intro cid h
          simp at h
        · intro cid h
          simp at h
      | gate => exact absurd hpy hyield
    | none =>
      unfold flushLoop
      dsimp only
      rw [hpy]
      dsimp only
      cases rest with
      | nil =>
        constructor
        · intro cid h
          simp at h
        · intro cid h
          simp at h
      | cons c2 rest2 =>
        dsimp only
        by_cases hdep : c2.depth = g
        · rw [if_pos hdep]
          have ih := flushLoop_no_gate B (c2 :: rest2) g (processOne B g c t).time
            (comp ++ [c.cid]) (dirty ++ (if (processOne B g c t).selfDirty then [c.cid] else []))
            (fun c0 r0 h0 => by
              injection h0 with h1 h2
              rw [← h1, hdep])
          constructor
          · exact ih.1
          · intro cid h
            obtain ⟨l1, d1, d2, l2, heq, hcid, hne⟩ := ih.2 cid h
            exact ⟨c :: l1, d1, d2, l2, by rw [heq]; rfl, hcid, hne⟩
        · rw [if_neg hdep]
          by_cases hsy : shouldYieldB B (processOne B g c t).time = true
          · rw [if_pos hsy]
            constructor
            · intro cid h
              simp at h
            · intro cid h
              simp only [Option.some.injEq, StopReason.between.injEq] at h
              refine ⟨[], c, c2, rest2, rfl, h, ?_⟩
              rw [hgc] at hdep
              exact hdep
          · rw [if_neg hsy]
            have ih := flushLoop_no_gate B (c2 :: rest2) c2.depth (processOne B g c t).time
              (comp ++ [c.cid]) (dirty ++ (if (processOne B g c t).selfDirty then [c.cid] else []))
              (fun c0 r0 h0 => by
                injection h0 with h1 h2
                rw [← h1])
            constructor
            · exact ih.1
            · intro cid h
              obtain ⟨l1, d1, d2, l2, heq, hcid, hne⟩ := ih.2 cid h
              exact ⟨c :: l1, d1, d2, l2, by rw [heq]; rfl, hcid, hne⟩

/-- C7 amended: in a flush where every component runs under `depth` locality,
the explicit between-component yield checkpoint never fires between two
components at the same depth — whenever the flush stops with a
`between` reason before a component, that component's depth differs from its
predecessor's in the sorted batch — and the depth-gated pre-initial-commit
check never stops the flush at all.  (A component's own buffer drain may
still yield between two same-depth components, as the counterexample shows.) -/
theorem c7_depth_gate (B : Option Nat) (dirtySet : List SComp) (t0 : Nat) (cid : Nat) :
    ((flush B dirtySet t0).stop ≠ some (StopReason.gateY cid))
    ∧ ((flush B dirtySet t0).stop = some (StopReason.between cid) →
        ∃ l1 c1 c2 l2, List.insertionSort compLe dirtySet = l1 ++ c1 :: c2 :: l2
          ∧ c2.cid = cid ∧ c2.depth ≠ c1.depth) := by
  unfold flush
  cases hb : List.insertionSort compLe dirtySet with
  | nil =>
    constructor
    · intro h
      simp at h
    · intro h
      simp at h
  | cons c rest =>
    dsimp only
    by_cases hrdy : (c :: rest).any (fun x => !x.ready) = true
    · rw [if_pos hrdy]
      constructor
      · intro h
        simp at h
      · intro h
        simp at h
    · rw [if_neg hrdy]
      have h := flushLoop_no_gate B (c :: rest) c.depth t0 [] []
        (fun c0 r0 h0 => by
          injection h0 with h1 h2
          rw [← h1])
      exact ⟨h.1 cid, h.2 cid⟩

def c7compC : SComp := ⟨2, 1, 0, 2, true, false, true, oneOpBuffer "c"⟩

theorem c7_depth_gate_witness :
    ∃ l1 c1 c2 l2, List.insertionSort compLe [c7compA, c7compC] = l1 ++ c1 :: c2 :: l2
      ∧ c2.cid = 2 ∧ c2.depth ≠ c1.depth :=
  (c7_depth_gate (some 1) [c7compA, c7compC] 0 2).2 (by decide)

/-! ### C5: per-key cleanup atomicity (Component._effect, core.js lines 631-685)

A user-op dispatch through `_effect` is modelled by the op's key together
with the callables collected during the effect chain (behaviors base→derived,
then the legacy effect).  Awaiting is sequential composition, so the emitted
event trace makes the ordering explicit: the previous combined cleanup for
the key runs (its callables in LIFO order, each awaited) and is removed from
`_cleanups` before the new effect chain begins; the new non-empty collection
is stored as the key's combined cleanup. -/

inductive EffEv where
  | cleanupRun (id : Nat)
  | effectBegin (key : String) (idx : Nat)
deriving DecidableEq

structure Dispatch where
  key : String
  collected : List Nat
deriving DecidableEq

/-- `Map.delete` on an association list. -/
def eraseKey {β : Type} (m : List (String × β)) (k : String) : List (String × β) :=
  m.filter (fun kv => !decide (kv.1 = k))

/-- Events emitted by the previous combined cleanup for `k`: its collected
callables invoked in reverse (LIFO) order, each awaited. -/
def prevCleanupEvs (m : List (String × List Nat)) (k : String) : List EffEv :=
  match alookup m k with
  | some ids => ids.reverse.map EffEv.cleanupRun
  | none => []

/-- The cleanup map after the previous-cleanup phase: the entry for `k` is
deleted (in the source, the `finally` delete) iff it existed. -/
def afterCleanup (m : List (String × List Nat)) (k : String) :
    List (String × List Nat) :=
  match alookup m k with
  | some _ => eraseKey m k
  | none => m

/-- One `_effect(op)` dispatch for a user op: run the previous per-key
cleanup and delete it, run the effect chain (its begin marks the trace), and
store the collected callables as the new combined cleanup when non-empty. -/
def dispatchStep (m : List (String × List Nat)) (idx : Nat) (d : Dispatch) :
    List (String × List Nat) × List EffEv :=
  let evs := prevCleanupEvs m d.key
  let m1 := afterCleanup m d.key
  let m2 := if d.collected = [] then m1 else m1 ++ [(d.key, d.collected)]
  (m2, evs ++ [EffEv.effectBegin d.key idx])

def runDispatches : List Dispatch → List (String × List Nat) → Nat →
    List (String × List Nat) × List EffEv
  | [], m, _ => (m, [])
  | d :: rest, m, n =>
    let r1 := dispatchStep m n d
    let r2 := runDispatches rest r1.1 (n + 1)
    (r2.1, r1.2 ++ r2.2)

/-- Collected callables of the most recent dispatch for key `k`, or `[]`. -/
def lastCollected (ds : List Dispatch) (k : String) : List Nat :=
  match ds.reverse.find? (fun d => decide (d.key = k)) with
  | some d => d.collected
  | none => []

/-- The trace segment contributed by the `j`-th dispatch: the previous
same-key dispatch's cleanups in LIFO order, then the effect chain start. -/
def segTrace (ds : List Dispatch) (j : Nat) : List EffEv :=
  match ds[j]? with
  | some d => (lastCollected (ds.take j) d.key).reverse.map EffEv.cleanupRun
      ++ [EffEv.effectBegin d.key j]
  | none => []

theorem alookup_cons {β : Type} (k1 : String) (v1 : β) (rest : List (String × β))
    (k : String) :
    alookup ((k1, v1) :: rest) k = if k1 = k then some v1 else alookup rest k := rfl

theorem eraseKey_cons {β : Type} (k1 : String) (v1 : β) (rest : List (String × β))
    (k : String) :
    eraseKey ((k1, v1) :: rest) k
      = if k1 = k then eraseKey rest k else (k1, v1) :: eraseKey rest k := by
  unfold eraseKey
  rw [List.filter_cons]
  by_cases h : k1 = k
  · rw [if_neg (by simp [h]), if_pos h]
  · rw [if_pos (by simp [h]), if_neg h]

theorem alookup_eraseKey_self {β : Type} (m : List (String × β)) (k : String) :
    alookup (eraseKey m k) k = none := by
  induction m with
  | nil => rfl
  | cons kv rest ih =>
    rcases kv with ⟨k1, v1⟩
    rw [eraseKey_cons]
    by_cases h : k1 = k
    · rw [if_pos h]
      exact ih
    · rw [if_neg h, alookup_cons, if_neg h]
      exact ih

theorem alookup_eraseKey_ne {β : Type} (m : List (String × β)) {k k2 : String}
    (h : k2 ≠ k) : alookup (eraseKey m k) k2 = alookup m k2 := by
  induction m with
  | nil => rfl
  | cons kv rest ih =>
    rcases kv with ⟨k1, v1⟩
    rw [eraseKey_cons, alookup_cons]
    by_cases hk : k1 = k
    · rw [if_pos hk, if_neg (fun hc : k1 = k2 => h (hc.symm.trans hk))]
      exact ih
    · rw [if_neg hk, alookup_cons]
      by_cases h1 : k1 = k2
      · rw [if_pos h1, if_pos h1]
      · rw [if_neg h1, if_neg h1]
        exact ih

theorem alookup_afterCleanup_self (m : List (String × List Nat)) (k : String) :
    alookup (afterCleanup m k) k = none := by
  unfold afterCleanup
  cases h : alookup m k with
  | none => exact h
  | some v => exact alookup_eraseKey_self m k

theorem alookup_afterCleanup_ne (m : List (String × List Nat)) {k k2 : String}
    (h : k2 ≠ k) : alookup (afterCleanup m k) k2 = alookup m k2 := by
  unfold afterCleanup
  cases alookup m k with
  | none => rfl
  | some v => exact alookup_eraseKey_ne m h

theorem alookup_append {β : Type} (l1 l2 : List (String × β)) (k : String) :
    alookup (l1 ++ l2) k
      = (match alookup l1 k with | some v => some v | none => alookup l2 k) := by
  induction l1 with
  | nil => rfl
  | cons kv rest ih =>
    rcases kv with ⟨k1, v1⟩
    rw [List.cons_append, alookup_cons, alookup_cons]
    by_cases h : k1 = k
    · rw [if_pos h, if_pos h]
    · rw [if_neg h, if_neg h]
      exact ih

theorem runDispatches_nil (m : List (String × List Nat)) (n : Nat) :
    runDispatches [] m n = (m, []) := rfl

theorem runDispatches_cons (d : Dispatch) (rest : List Dispatch)
    (m : List (String × List Nat)) (n : Nat) :
    runDispatches (d :: rest) m n
      = ((runDispatches rest (dispatchStep m n d).1 (n + 1)).1,
         (dispatchStep m n d).2 ++ (runDispatches rest (dispatchStep m n d).1 (n + 1)).2) := rfl

theorem dispatchStep_map (m : List (String × List Nat)) (idx : Nat) (d : Dispatch) :
    (dispatchStep m idx d).1
      = (if d.collected = [] then afterCleanup m d.key
         else afterCleanup m d.key ++ [(d.key, d.collected)]) := rfl

theorem dispatchStep_trace (m : List (String × List Nat)) (idx : Nat) (d : Dispatch) :
    (dispatchStep m idx d).2
      = prevCleanupEvs m d.key ++ [EffEv.effectBegin d.key idx] := rfl

theorem runDispatches_append (l1 l2 : List Dispatch) :
    ∀ (m : List (String × List Nat)) (n : Nat),
      runDispatches (l1 ++ l2) m n
        = ((runDispatches l2 (runDispatches l1 m n).1 (n + l1.length)).1,
           (runDispatches l1 m n).2
             ++ (runDispatches l2 (runDispatches l1 m n).1 (n + l1.length)).2) := by
  induction l1 with
  | nil =>
    intro m n
    simp [runDispatches_nil]
  | cons d rest ih =>
    intro m n
    rw [List.cons_append, runDispatches_cons, runDispatches_cons]
    rw [ih (dispatchStep m n d).1 (n + 1)]
    have hlen : n + 1 + rest.length = n + (rest.length + 1) := by omega
    rw [List.length_cons, hlen]
    dsimp only
    rw [List.append_assoc]

theorem lastCollected_append_self (ds : List Dispatch) (d : Dispatch) :
    lastCollected (ds ++ [d]) d.key = d.collected := by
  unfold lastCollected
  rw [List.reverse_append]
  show (match List.find? (fun d2 => decide (d2.key = d.key)) (d :: ds.reverse) with
        | some d2 => d2.collected | none => []) = d.collected
  rw [List.find?_cons_of_pos _ (by simp)]

theorem lastCollected_append_ne (ds : List Dispatch) (d : Dispatch) {k : String}
    (h : k ≠ d.key) : lastCollected (ds ++ [d]) k = lastCollected ds k := by
  unfold lastCollected
  rw [List.reverse_append]
  show (match List.find? (fun d2 => decide (d2.key = k)) (d :: ds.reverse) with
        | some d2 => d2.collected | none => []) = _
  rw [List.find?_cons_of_neg _ (by simp; exact fun hc => h hc.symm)]

theorem runDispatches_map (ds : List Dispatch) :
    ∀ (n : Nat) (k : String),
      alookup (runDispatches ds [] n).1 k
        = (if lastCollected ds k = [] then none else some (lastCollected ds k)) := by
  induction ds using List.reverseRecOn with
  | nil =>
    intro n k
    simp [runDispatches_nil, lastCollected, alookup]
  | append_singleton ds d ih =>
    intro n k
    rw [runDispatches_append ds [d] [] n]
    dsimp only
    rw [runDispatches_cons, runDispatches_nil]
    dsimp only
    rw [dispatchStep_map]
    by_cases hk : k = d.key
    · rw [hk, lastCollected_append_self]
      by_cases hc : d.collected = []
      · rw [if_pos hc, if_pos hc]
        exact alookup_afterCleanup_self _ _
      · rw [if_neg hc, if_neg hc, alookup_append, alookup_afterCleanup_self]
        dsimp only
        rw [alookup_cons, if_pos rfl]
    · rw [lastCollected_append_ne ds d hk]
      by_cases hc : d.collected = []
      · rw [if_pos hc, alookup_afterCleanup_ne _ hk]
        exact ih n k
      · rw [if_neg hc, alookup_append, alookup_afterCleanup_ne _ hk, ih n k]
        by_cases hl : lastCollected ds k = []
        · rw [if_pos hl]
          dsimp only
          rw [alookup_cons, if_neg (fun hc2 => hk hc2.symm)]
          rfl
        · rw [if_neg hl]

theorem flatMap_congr {α β : Type} {l : List α} {f g : α → List β}
    (h : ∀ x ∈ l, f x = g x) : l.flatMap f = l.flatMap g := by
  induction l with
  | nil => rfl
  | cons x rest ih =>
    rw [List.flatMap_cons, List.flatMap_cons, h x (List.mem_cons_self x rest),
      ih (fun y hy => h y (List.mem_cons_of_mem _ hy))]

/-- C5: running any sequence of user-op effect dispatches from an empty
cleanup map produces exactly, for each dispatch `j`, the combined cleanup
registered by the most recent previous dispatch with the same key — its
callables invoked in LIFO order, fully before dispatch `j`'s effect chain
begins — and the per-key entry is deleted from the cleanup map before the
new effect chain runs. -/
theorem c5_cleanup_atomicity (ds : List Dispatch) :
    (runDispatches ds [] 0).2 = (List.range ds.length).flatMap (segTrace ds)
    ∧ (∀ m k, alookup (afterCleanup m k) k = none) := by
  constructor
  · induction ds using List.reverseRecOn with
    | nil => simp [runDispatches_nil]
    | append_singleton ds d ih =>
      rw [runDispatches_append ds [d] [] 0]
      dsimp only
      rw [List.length_append, List.length_cons, List.length_nil, List.range_succ,
        List.flatMap_append]
      have hseg : (List.range ds.length).flatMap (segTrace (ds ++ [d]))
          = (List.range ds.length).flatMap (segTrace ds) := by
        apply flatMap_congr
        intro j hj
        rw [List.mem_range] at hj
        unfold segTrace
        rw [List.getElem?_append, if_pos hj,
          List.take_append_of_le_length (le_of_lt hj)]
      rw [hseg, ← ih]
      congr 1
      rw [runDispatches_cons, runDispatches_nil]
      dsimp only
      rw [dispatchStep_trace, List.append_nil]
      show prevCleanupEvs (runDispatches ds [] 0).1 d.key
          ++ [EffEv.effectBegin d.key (0 + ds.length)]
        = [ds.length].flatMap (segTrace (ds ++ [d]))
      rw [List.flatMap_cons]
      show _ = segTrace (ds ++ [d]) ds.length ++ List.flatMap ([] : List Nat) (segTrace (ds ++ [d]))
      rw [show List.flatMap ([] : List Nat) (segTrace (ds ++ [d])) = [] from rfl, List.append_nil]
      unfold segTrace
      rw [List.getElem?_concat_length, List.take_left]
      unfold prevCleanupEvs
      rw [runDispatches_map ds 0 d.key]
      have hz : (0 : Nat) + ds.length = ds.length := by omega
      rw [hz]
      by_cases hc : lastCollected ds d.key = []
      · rw [if_pos hc]
        dsimp only
        rw [hc]
        simp
      · rw [if_neg hc]
  · intro m k
    exact alookup_afterCleanup_self m k

/-! ### Component update machine (core.js lines 505-598, 689-736)

Props objects are functions `String → Option Int`.  Asynchrony is made
explicit by events: `update` runs the synchronous part of `update` +
`_processUpdate`/`_processUpdatePreReady` up to the first `await` inside the
diff (staging, generation bump, ticket capture, and the queue pushes the
user's diff performs synchronously, recorded as `queued`); the `resolve…`
events run the corresponding continuations when the diff's promise settles,
with the outcome `r` folding together the user diff's result and any
behavior-forced defer.  `dirtyCalls` counts `scheduler.markDirty`
invocations, `diffRuns` counts user-diff invocations, `behaviorDiffRuns`
counts behavior-diff invocations (`numBehaviors` per `_runDiff`). -/

def Obj : Type := String → Option Int

def emptyObj : Obj := fun _ => none

/-- `Object.assign({}, base, patch)` / `{...base, ...patch}`. -/
def assignObj (base patch : Obj) : Obj :=
  fun k => match patch k with
  | some v => some v
  | none => base k

inductive DiffR where
  | defer
  | commit
deriving DecidableEq

structure Pending where
  ticket : Nat
  prev : Obj
  next : Obj

structure CompM where
  props : Obj
  stagedProps : Option Obj
  prevProps : Option Obj
  destroyed : Bool
  ready : Bool
  diffTicket : Nat
  needsInitialDiff : Bool
  preReadyDiffRan : Bool
  hasInitialized : Bool
  cmds : Buffer Int
  componentPriority : Int
  pendingUpdates : List Pending
  pendingInitial : Option Pending
  pendingPre : List Pending
  diffRuns : Nat
  behaviorDiffRuns : Nat
  dirtyCalls : Nat
  numBehaviors : Nat

/-- `this._cmds.nextGen()`. -/
def bumpGen {α : Type} (b : Buffer α) : Buffer α := { b with generation := b.generation + 1 }

/-- `_commit(next)`: `prevProps = props; props = next; stagedProps = null`. -/
def commitProps (s : CompM) (next : Obj) : CompM :=
  { s with prevProps := some s.props, props := next, stagedProps := none }

/-- The stale-ticket check of `_runDiff` (line 581): a resolution whose
captured ticket is no longer current is treated as DEFER. -/
def staleResult (s : CompM) (ticket : Nat) (r : DiffR) : DiffR :=
  if ticket ≠ s.diffTicket then DiffR.defer else r

inductive Ev where
  | update (patch : Obj) (queued : List (PushArgs Int))
  | resolveUpdate (ticket : Nat) (r : DiffR)
  | startInitialDiff (queued : List (PushArgs Int))
  | resolveInitialDiff (ticket : Nat) (r : DiffR)
  | resolvePre (ticket : Nat)
  | hostReady
  | destroy

def step (s : CompM) : Ev → CompM
  | Ev.update patch queued =>
    if s.destroyed then s
    else
      let s1 : CompM := { s with cmds := bumpGen s.cmds }
      let prev := s1.props
      let next := assignObj (s1.stagedProps.getD s1.props) patch
      let s2 : CompM := { s1 with stagedProps := some next }
      if s2.ready then
        { s2 with needsInitialDiff := false
                , diffTicket := s2.diffTicket + 1
                , behaviorDiffRuns := s2.behaviorDiffRuns + s2.numBehaviors
                , diffRuns := s2.diffRuns + 1
                , cmds := pushList s2.cmds queued
                , dirtyCalls := s2.dirtyCalls + queued.length
                , pendingUpdates := s2.pendingUpdates ++ [⟨s2.diffTicket + 1, prev, next⟩] }
      else
        { s2 with needsInitialDiff := true
                , diffTicket := s2.diffTicket + 1
                , diffRuns := s2.diffRuns + 1
                , cmds := pushList s2.cmds queued
                , pendingPre := s2.pendingPre ++ [⟨s2.diffTicket + 1, prev, next⟩] }
  | Ev.resolveUpdate t r =>
    match s.pendingUpdates.find? (fun p => decide (p.ticket = t)) with
    | none => s
    | some p =>
      let s1 : CompM := { s with
        pendingUpdates := s.pendingUpdates.filter (fun p2 => !decide (p2.ticket = t)) }
      let eff := staleResult s1 t r
      if s1.destroyed then s1
      else
        let s2 : CompM := if eff = DiffR.defer then s1 else commitProps s1 p.next
        if s2.ready ∧ 0 < s2.cmds.size then { s2 with dirtyCalls := s2.dirtyCalls + 1 }
        else s2
  | Ev.startInitialDiff queued =>
    if !s.needsInitialDiff then s
    else
      let next := s.stagedProps.getD s.props
      if s.preReadyDiffRan then
        let s1 : CompM := { commitProps s next with needsInitialDiff := false, hasInitialized := true }
        if 0 < s1.cmds.size then { s1 with dirtyCalls := s1.dirtyCalls + 1 } else s1
      else
        { s with diffTicket := s.diffTicket + 1
               , behaviorDiffRuns := s.behaviorDiffRuns + s.numBehaviors
               , diffRuns := s.diffRuns + 1
               , cmds := pushList s.cmds queued
               , dirtyCalls := s.dirtyCalls + (if s.ready then queued.length else 0)
               , pendingInitial := some ⟨s.diffTicket + 1, s.props, next⟩ }
  | Ev.resolveInitialDiff t r =>
    match s.pendingInitial with
    | none => s
    | some p =>
      if p.ticket = t then
        let s1 : CompM := { s with pendingInitial := none }
        let eff := staleResult s1 t r
        let s2 : CompM := if eff = DiffR.defer then s1 else commitProps s1 p.next
        let s3 : CompM := { s2 with needsInitialDiff := false, hasInitialized := true }
        if 0 < s3.cmds.size then { s3 with dirtyCalls := s3.dirtyCalls + 1 } else s3
      else s
  | Ev.resolvePre t =>
    match s.pendingPre.find? (fun p => decide (p.ticket = t)) with
    | none => s
    | some _ =>
      { s with pendingPre := s.pendingPre.filter (fun p2 => !decide (p2.ticket = t))
             , preReadyDiffRan := true }
  | Ev.hostReady => { s with ready := true }
  | Ev.destroy =>
    { s with destroyed := true, cmds := clearedBuffer s.cmds }

def runE (s : CompM) : List Ev → CompM
  | [] => s
  | e :: rest => runE (step s e) rest

/-! ### C8: Component.queue (core.js lines 724-736)

`opts.key`, and the value returned by `coalesceBy`, are `Option String`
(`none` models a nullish JavaScript value); `""` models the remaining falsy
string, which `push`'s `!key` guard also rejects. -/

structure QueueOpts where
  key : Option String
  priority : Option Int
  coalesceBy : Option (String → Int → Option String)
  squashWith : Option (Int → Int → Op Int → Op Int → Int)

/-- `coalesceBy ? coalesceBy(type, payload) : (key ?? type)` — note there is
no fallback when `coalesceBy` is provided but returns a nullish value. -/
def effKey (opts : QueueOpts) (ty : String) (payload : Int) : Option String :=
  match opts.coalesceBy with
  | some f => f ty payload
  | none => match opts.key with | some k => some k | none => some ty

/-- `Component.queue(type, payload, opts)`: compute the effective priority
and coalescing key, push (the `push` guards throwing on a falsy type or
key), and mark dirty only when the runtime is ready. -/
def Component.queue (s : CompM) (ty : String) (payload : Int) (opts : QueueOpts) :
    Except String CompM :=
  let priority := s.componentPriority + opts.priority.getD 0
  if ty = "" then Except.error "op.type is required"
  else match effKey opts ty payload with
    | none => Except.error "op.key is required (use Component.queue to compute it)"
    | some k =>
      if k = "" then Except.error "op.key is required (use Component.queue to compute it)"
      else
        let s1 : CompM := { s with cmds := s.cmds.push ⟨ty, k, payload, some priority, opts.squashWith⟩ }
        Except.ok (if s1.ready then { s1 with dirtyCalls := s1.dirtyCalls + 1 } else s1)

/-! ### Step equation lemmas -/

theorem step_update_destroyed (s : CompM) (patch : Obj) (queued : List (PushArgs Int))
    (h : s.destroyed = true) : step s (Ev.update patch queued) = s := by
  unfold step
  dsimp only
  rw [if_pos h]

theorem step_update_ready (s : CompM) (patch : Obj) (queued : List (PushArgs Int))
    (h1 : s.ready = true) (h2 : s.destroyed = false) :
    step s (Ev.update patch queued)
      = { s with stagedProps := some (assignObj (s.stagedProps.getD s.props) patch)
               , needsInitialDiff := false
               , diffTicket := s.diffTicket + 1
               , behaviorDiffRuns := s.behaviorDiffRuns + s.numBehaviors
               , diffRuns := s.diffRuns + 1
               , cmds := pushList (bumpGen s.cmds) queued
               , dirtyCalls := s.dirtyCalls + queued.length
               , pendingUpdates := s.pendingUpdates
                   ++ [⟨s.diffTicket + 1, s.props,
                        assignObj (s.stagedProps.getD s.props) patch⟩] } := by
  unfold step
  dsimp only
  rw [if_neg (by simp [h2]), if_pos h1]

theorem step_update_preready (s : CompM) (patch : Obj) (queued : List (PushArgs Int))
    (h1 : s.ready = false) (h2 : s.destroyed = false) :
    step s (Ev.update patch queued)
      = { s with stagedProps := some (assignObj (s.stagedProps.getD s.props) patch)
               , needsInitialDiff := true
               , diffTicket := s.diffTicket + 1
               , diffRuns := s.diffRuns + 1
               , cmds := pushList (bumpGen s.cmds) queued
               , pendingPre := s.pendingPre
                   ++ [⟨s.diffTicket + 1, s.props,
                        assignObj (s.stagedProps.getD s.props) patch⟩] } := by
  unfold step
  dsimp only
  rw [if_neg (by simp [h2]), if_neg (by simp [h1])]

theorem resolveUpdate_stale_fields (s : CompM) (t : Nat) (r : DiffR)
    (hst : t ≠ s.diffTicket) :
    (step s (Ev.resolveUpdate t r)).props = s.props
    ∧ (step s (Ev.resolveUpdate t r)).stagedProps = s.stagedProps
    ∧ (step s (Ev.resolveUpdate t r)).prevProps = s.prevProps := by
  unfold step
  dsimp only
  cases hf : s.pendingUpdates.find? (fun p => decide (p.ticket = t)) with
  | none => exact ⟨rfl, rfl, rfl⟩
  | some p =>
    dsimp only
    have hst2 : staleResult { s with
        pendingUpdates := s.pendingUpdates.filter (fun p2 => !decide (p2.ticket = t)) } t r
        = DiffR.defer := by
      unfold staleResult
      rw [if_pos hst]
    rw [hst2, if_pos rfl]
    refine ⟨?_, ?_, ?_⟩ <;> (repeat' split) <;> rfl

/-- C10 counterexample setup: a freshly constructed component whose
constructor enqueued `@ride/init` and whose first (pre-ready) async diff is
still in flight when the host becomes ready. -/
def initOpArgs : PushArgs Int :=
  ⟨"@ride/init", "@ride/init:0:App", 0, some (-1), some (fun prev _ _ _ => prev)⟩

def mkFresh : CompM :=
  { props := emptyObj, stagedProps := none, prevProps := none, destroyed := false
  , ready := false, diffTicket := 0, needsInitialDiff := true, preReadyDiffRan := false
  , hasInitialized := false, cmds := Buffer.empty.push initOpArgs, componentPriority := 0
  , pendingUpdates := [], pendingInitial := none, pendingPre := []
  , diffRuns := 0, behaviorDiffRuns := 0, dirtyCalls := 0, numBehaviors := 0 }

def objA : Obj := fun k => if k = "a" then some 1 else none

def c10events : List Ev :=
  [Ev.update objA [], Ev.hostReady, Ev.startInitialDiff [], Ev.destroy,
   Ev.resolveInitialDiff 2 DiffR.commit]

/-- C10 counterexample: a component is constructed pre-ready with
`update({a:1})` whose async diff never resolves; the host becomes ready and
the flush starts the initial diff (`preReadyDiffRan` is still false);
`destroy()` runs while that diff is in flight; the diff then resolves with
COMMIT — and `_runInitialDiff` commits the staged props anyway, changing
`props` after destroy, because it never rechecks `_destroyed`. -/
theorem c10_initial_diff_commits_after_destroy :
    (runE mkFresh (c10events.take 4)).destroyed = true
    ∧ (runE mkFresh (c10events.take 4)).pendingInitial.isSome = true
    ∧ (runE mkFresh (c10events.take 4)).props "a" = none
    ∧ (runE mkFresh c10events).destroyed = true
    ∧ (runE mkFresh c10events).props "a" = some 1 :=
  ⟨rfl, rfl, rfl, rfl, rfl⟩

/-- C10 amended: once `destroy()` has been called, `update(patch)` returns
immediately leaving the whole component state unchanged, and a diff started
by `update` that was in flight when destroy ran never commits — it changes
none of `props`, `stagedProps`, `prevProps`, the command buffer, the diff
counters, or the dirty count.  (An in-flight *initial* diff may still commit
after destroy, as the counterexample records.) -/
theorem c10_destroyed_update_noop (s : CompM) (patch : Obj)
    (queued : List (PushArgs Int)) (t : Nat) (r : DiffR) (h : s.destroyed = true) :
    step s (Ev.update patch queued) = s
    ∧ (step s (Ev.resolveUpdate t r)).props = s.props
    ∧ (step s (Ev.resolveUpdate t r)).stagedProps = s.stagedProps
    ∧ (step s (Ev.resolveUpdate t r)).prevProps = s.prevProps
    ∧ (step s (Ev.resolveUpdate t r)).cmds = s.cmds
    ∧ (step s (Ev.resolveUpdate t r)).diffRuns = s.diffRuns
    ∧ (step s (Ev.resolveUpdate t r)).dirtyCalls = s.dirtyCalls := by
  refine ⟨step_update_destroyed s patch queued h, ?_⟩
  unfold step
  dsimp only
  cases hf : s.pendingUpdates.find? (fun p => decide (p.ticket = t)) with
  | none => exact ⟨rfl, rfl, rfl, rfl, rfl, rfl⟩
  | some p =>
    dsimp only
    rw [if_pos h]
    exact ⟨rfl, rfl, rfl, rfl, rfl, rfl⟩

def c10state : CompM :=
  { mkFresh with destroyed := true, ready := true }

theorem c10_destroyed_update_noop_witness :
    step c10state (Ev.update objA []) = c10state
    ∧ (step c10state (Ev.resolveUpdate 1 DiffR.commit)).props = c10state.props
    ∧ (step c10state (Ev.resolveUpdate 1 DiffR.commit)).stagedProps = c10state.stagedProps
    ∧ (step c10state (Ev.resolveUpdate 1 DiffR.commit)).prevProps = c10state.prevProps
    ∧ (step c10state (Ev.resolveUpdate 1 DiffR.commit)).cmds = c10state.cmds
    ∧ (step c10state (Ev.resolveUpdate 1 DiffR.commit)).diffRuns = c10state.diffRuns
    ∧ (step c10state (Ev.resolveUpdate 1 DiffR.commit)).dirtyCalls = c10state.dirtyCalls :=
  c10_destroyed_update_noop c10state objA [] 1 DiffR.commit rfl

/-- C4: the second of two overlapping updates advances the diff ticket past
the first diff's captured ticket; the first diff's resolution is therefore
treated as DEFER by the stale check and changes none of `props`,
`stagedProps`, `prevProps`. -/
theorem c4_stale_diff_safety (s : CompM) (p1 p2 : Obj)
    (q1 q2 : List (PushArgs Int)) (r : DiffR)
    (h1 : s.ready = true) (h2 : s.destroyed = false) :
    (step (step s (Ev.update p1 q1)) (Ev.update p2 q2)).diffTicket = s.diffTicket + 1 + 1
    ∧ staleResult (step (step s (Ev.update p1 q1)) (Ev.update p2 q2))
        (s.diffTicket + 1) r = DiffR.defer
    ∧ (step (step (step s (Ev.update p1 q1)) (Ev.update p2 q2))
          (Ev.resolveUpdate (s.diffTicket + 1) r)).props
        = (step (step s (Ev.update p1 q1)) (Ev.update p2 q2)).props
    ∧ (step (step (step s (Ev.update p1 q1)) (Ev.update p2 q2))
          (Ev.resolveUpdate (s.diffTicket + 1) r)).stagedProps
        = (step (step s (Ev.update p1 q1)) (Ev.update p2 q2)).stagedProps
    ∧ (step (step (step s (Ev.update p1 q1)) (Ev.update p2 q2))
          (Ev.resolveUpdate (s.diffTicket + 1) r)).prevProps
        = (step (step s (Ev.update p1 q1)) (Ev.update p2 q2)).prevProps := by
  have e1 := step_update_ready s p1 q1 h1 h2
  have hr1 : (step s (Ev.update p1 q1)).ready = true := by rw [e1]; exact h1
  have hd1 : (step s (Ev.update p1 q1)).destroyed = false := by rw [e1]; exact h2
  have e2 := step_update_ready (step s (Ev.update p1 q1)) p2 q2 hr1 hd1
  have hdt : (step (step s (Ev.update p1 q1)) (Ev.update p2 q2)).diffTicket
      = s.diffTicket + 1 + 1 := by
    rw [e2, e1]
  have hne : s.diffTicket + 1 ≠ (step (step s (Ev.update p1 q1)) (Ev.update p2 q2)).diffTicket := by
    rw [hdt]
    omega
  have hfields := resolveUpdate_stale_fields
    (step (step s (Ev.update p1 q1)) (Ev.update p2 q2)) (s.diffTicket + 1) r hne
  refine ⟨hdt, ?_, hfields.1, hfields.2.1, hfields.2.2⟩
  unfold staleResult
  rw [if_pos hne]

def c4state : CompM :=
  { mkFresh with ready := true }

theorem c4_stale_diff_safety_witness :
    (step (step c4state (Ev.update objA [])) (Ev.update objA [])).diffTicket
        = c4state.diffTicket + 1 + 1
    ∧ staleResult (step (step c4state (Ev.update objA [])) (Ev.update objA []))
        (c4state.diffTicket + 1) DiffR.commit = DiffR.defer
    ∧ (step (step (step c4state (Ev.update objA [])) (Ev.update objA []))
          (Ev.resolveUpdate (c4state.diffTicket + 1) DiffR.commit)).props
        = (step (step c4state (Ev.update objA [])) (Ev.update objA [])).props
    ∧ (step (step (step c4state (Ev.update objA [])) (Ev.update objA []))
          (Ev.resolveUpdate (c4state.diffTicket + 1) DiffR.commit)).stagedProps
        = (step (step c4state (Ev.update objA [])) (Ev.update objA [])).stagedProps
    ∧ (step (step (step c4state (Ev.update objA [])) (Ev.update objA []))
          (Ev.resolveUpdate (c4state.diffTicket + 1) DiffR.commit)).prevProps
        = (step (step c4state (Ev.update objA [])) (Ev.update objA [])).prevProps :=
  c4_stale_diff_safety c4state objA objA [] [] DiffR.commit rfl rfl

/-! ### C8 -/

def c8state : CompM := { mkFresh with ready := true }

def c8opts : QueueOpts := ⟨some "k", none, some (fun _ _ => none), none⟩

/-- C8 counterexample: with `coalesceBy` provided but returning a nullish
value and `opts.key = "k"`, the claim predicts the key falls back to `"k"`;
the code computes `coalesceKey = null` with no fallback and `push` throws
`op.key is required`, so no op is pushed at all. -/
theorem c8_coalesceBy_counterexample :
    Component.queue c8state "tick" 0 c8opts
      = Except.error "op.key is required (use Component.queue to compute it)" := rfl

/-- C8 amended: when `queue(type, payload, opts)` succeeds, the pushed op has
key `coalesceBy(type, payload)` if `coalesceBy` is provided — with no
fallback: a nullish or empty result makes `push` throw and nothing is pushed
— and otherwise `opts.key ?? type`; its effective priority is
`componentPriority + (opts.priority ?? 0)`; and the component is marked
dirty exactly when the runtime is ready. -/
theorem c8_queue_spec (s : CompM) (ty : String) (pl : Int) (opts : QueueOpts)
    (sq : CompM) (hq : Component.queue s ty pl opts = Except.ok sq) :
    sq.cmds = s.cmds.push ⟨ty, (effKey opts ty pl).getD "", pl,
        some (s.componentPriority + opts.priority.getD 0), opts.squashWith⟩
    ∧ (effKey opts ty pl).isSome = true
    ∧ effKey opts ty pl ≠ some ""
    ∧ ty ≠ ""
    ∧ sq.dirtyCalls = s.dirtyCalls + (if s.ready then 1 else 0)
    ∧ sq.props = s.props := by
  unfold Component.queue at hq
  by_cases hty : ty = ""
  · rw [if_pos hty] at hq
    simp at hq
  · rw [if_neg hty] at hq
    cases hk : effKey opts ty pl with
    | none =>
      rw [hk] at hq
      simp at hq
    | some k =>
      rw [hk] at hq
      dsimp only at hq
      by_cases hke : k = ""
      · rw [if_pos hke] at hq
        simp at hq
      · rw [if_neg hke] at hq
        try dsimp only at hq
        injection hq with hsq
        refine ⟨?_, rfl, ?_, hty, ?_, ?_⟩
        · rw [← hsq]
          by_cases hr : s.ready = true
          · rw [if_pos hr] <;> rfl
          · rw [if_neg hr] <;> rfl
        · intro hc
          injection hc with hc2
          exact hke hc2
        · rw [← hsq]
          by_cases hr : s.ready = true
          · rw [if_pos hr, if_pos hr] <;> rfl
          · rw [if_neg hr, if_neg hr] <;> rfl
        · rw [← hsq]
          by_cases hr : s.ready = true
          · rw [if_pos hr] <;> rfl
          · rw [if_neg hr] <;> rfl

def c8okOpts : QueueOpts := ⟨some "k", some 7, none, none⟩

def c8sq : CompM :=
  match Component.queue c8state "tick" 3 c8okOpts with
  | Except.ok x => x
  | Except.error _ => c8state

theorem c8_queue_spec_witness :
    c8sq.cmds = c8state.cmds.push ⟨"tick", (effKey c8okOpts "tick" 3).getD "", 3,
        some (c8state.componentPriority + c8okOpts.priority.getD 0), c8okOpts.squashWith⟩
    ∧ (effKey c8okOpts "tick" 3).isSome = true
    ∧ effKey c8okOpts "tick" 3 ≠ some ""
    ∧ "tick" ≠ ""
    ∧ c8sq.dirtyCalls = c8state.dirtyCalls + (if c8state.ready then 1 else 0)
    ∧ c8sq.props = c8state.props :=
  c8_queue_spec c8state "tick" 3 c8okOpts c8sq rfl

/-! ### C6: pre-ready updates (core.js lines 587-598, 700-722, 531-551) -/

theorem find?_append_right_isSome {α : Type} (p : α → Bool) (l2 : List α)
    (h : (l2.find? p).isSome = true) :
    ∀ (l1 : List α), ((l1 ++ l2).find? p).isSome = true := by
  intro l1
  induction l1 with
  | nil => exact h
  | cons x rest ih =>
    rw [List.cons_append]
    by_cases hx : p x = true
    · rw [List.find?_cons_of_pos _ hx]
      rfl
    · rw [List.find?_cons_of_neg _ hx]
      exact ih

theorem step_initial_committed (s : CompM) (queued : List (PushArgs Int))
    (h3 : s.needsInitialDiff = true) (h4 : s.preReadyDiffRan = true) :
    (step s (Ev.startInitialDiff queued)).props = s.stagedProps.getD s.props
    ∧ (step s (Ev.startInitialDiff queued)).stagedProps = none
    ∧ (step s (Ev.startInitialDiff queued)).diffRuns = s.diffRuns
    ∧ (step s (Ev.startInitialDiff queued)).behaviorDiffRuns = s.behaviorDiffRuns
    ∧ (step s (Ev.startInitialDiff queued)).hasInitialized = true := by
  unfold step
  dsimp only
  rw [if_neg (by simp [h3]), if_pos h4]
  refine ⟨?_, ?_, ?_, ?_, ?_⟩ <;> (split <;> rfl)

/-- C6: an `update(patch)` issued while the runtime is not ready runs no
behavior diffs, runs the user's own diff once (whose synchronous queue calls
land in the command buffer), commits nothing, never calls
`scheduler.markDirty` (and neither does a later `queue` while not ready);
when the pre-ready diff settles, `preReadyDiffRan` is set; and on a state
with `needsInitialDiff` and `preReadyDiffRan` the first post-ready initial
commit swaps the staged props into `props` without running any diff again. -/
theorem c6_preready_update (s s3 sq : CompM) (patch : Obj)
    (queued : List (PushArgs Int)) (ty : String) (pl : Int) (opts : QueueOpts)
    (h1 : s.ready = false) (h2 : s.destroyed = false)
    (hq : Component.queue (step s (Ev.update patch queued)) ty pl opts = Except.ok sq)
    (h3 : s3.needsInitialDiff = true) (h4 : s3.preReadyDiffRan = true) :
    (step s (Ev.update patch queued)).behaviorDiffRuns = s.behaviorDiffRuns
    ∧ (step s (Ev.update patch queued)).diffRuns = s.diffRuns + 1
    ∧ (step s (Ev.update patch queued)).cmds = pushList (bumpGen s.cmds) queued
    ∧ (step s (Ev.update patch queued)).props = s.props
    ∧ (step s (Ev.update patch queued)).prevProps = s.prevProps
    ∧ (step s (Ev.update patch queued)).dirtyCalls = s.dirtyCalls
    ∧ sq.dirtyCalls = (step s (Ev.update patch queued)).dirtyCalls
    ∧ (step (step s (Ev.update patch queued))
          (Ev.resolvePre (s.diffTicket + 1))).preReadyDiffRan = true
    ∧ (step s3 (Ev.startInitialDiff [])).props = s3.stagedProps.getD s3.props
    ∧ (step s3 (Ev.startInitialDiff [])).stagedProps = none
    ∧ (step s3 (Ev.startInitialDiff [])).diffRuns = s3.diffRuns
    ∧ (step s3 (Ev.startInitialDiff [])).behaviorDiffRuns = s3.behaviorDiffRuns
    ∧ (step s3 (Ev.startInitialDiff [])).hasInitialized = true := by
  have e1 := step_update_preready s patch queued h1 h2
  have hrdy : (step s (Ev.update patch queued)).ready = false := by rw [e1]; exact h1
  have hqd := c8_queue_spec _ ty pl opts sq hq
  have hinit := step_initial_committed s3 [] h3 h4
  refine ⟨by rw [e1], by rw [e1], by rw [e1], by rw [e1], by rw [e1], by rw [e1], ?_, ?_,
    hinit.1, hinit.2.1, hinit.2.2.1, hinit.2.2.2.1, hinit.2.2.2.2⟩
  · rw [hqd.2.2.2.2.1, hrdy]
    rfl
  · rw [e1]
    unfold step
    dsimp only
    have hfind : (((s.pendingPre
        ++ [(⟨s.diffTicket + 1, s.props,
              assignObj (s.stagedProps.getD s.props) patch⟩ : Pending)]).find?
          (fun p => decide (p.ticket = s.diffTicket + 1))).isSome) = true := by
      apply find?_append_right_isSome
      rw [List.find?_cons_of_pos _ (by simp)]
      rfl
    cases hf : (s.pendingPre
        ++ [(⟨s.diffTicket + 1, s.props,
              assignObj (s.stagedProps.getD s.props) patch⟩ : Pending)]).find?
          (fun p => decide (p.ticket = s.diffTicket + 1)) with
    | none => rw [hf] at hfind; cases hfind
    | some p => rfl

def c6sq : CompM :=
  match Component.queue (step mkFresh (Ev.update objA [])) "tick" 3 c8okOpts with
  | Except.ok x => x
  | Except.error _ => mkFresh

def c6s3 : CompM := { mkFresh with preReadyDiffRan := true, stagedProps := some objA }

theorem c6_preready_update_witness :
    (step mkFresh (Ev.update objA [])).behaviorDiffRuns = mkFresh.behaviorDiffRuns
    ∧ (step mkFresh (Ev.update objA [])).diffRuns = mkFresh.diffRuns + 1
    ∧ (step mkFresh (Ev.update objA [])).cmds = pushList (bumpGen mkFresh.cmds) []
    ∧ (step mkFresh (Ev.update objA [])).props = mkFresh.props
    ∧ (step mkFresh (Ev.update objA [])).prevProps = mkFresh.prevProps
    ∧ (step mkFresh (Ev.update objA [])).dirtyCalls = mkFresh.dirtyCalls
    ∧ c6sq.dirtyCalls = (step mkFresh (Ev.update objA [])).dirtyCalls
    ∧ (step (step mkFresh (Ev.update objA []))
          (Ev.resolvePre (mkFresh.diffTicket + 1))).preReadyDiffRan = true
    ∧ (step c6s3 (Ev.startInitialDiff [])).props = c6s3.stagedProps.getD c6s3.props
    ∧ (step c6s3 (Ev.startInitialDiff [])).stagedProps = none
    ∧ (step c6s3 (Ev.startInitialDiff [])).diffRuns = c6s3.diffRuns
    ∧ (step c6s3 (Ev.startInitialDiff [])).behaviorDiffRuns = c6s3.behaviorDiffRuns
    ∧ (step c6s3 (Ev.startInitialDiff [])).hasInitialized = true :=
  c6_preready_update mkFresh c6s3 c6sq objA [] "tick" 3 c8okOpts rfl rfl rfl rfl rfl

/-! ### C3: staged props across deferred diffs -/

def c3state (P : Obj) (staged : Option Obj) (t g dr : Nat) : CompM :=
  { props := P, stagedProps := staged, prevProps := none, destroyed := false, ready := true
  , diffTicket := t, needsInitialDiff := false, preReadyDiffRan := false, hasInitialized := true
  , cmds := ⟨g, [], [], 0, 0⟩, componentPriority := 0, pendingUpdates := []
  , pendingInitial := none, pendingPre := [], diffRuns := dr, behaviorDiffRuns := 0
  , dirtyCalls := 0, numBehaviors := 0 }

/-- The event pairs of a run of `update`s whose diffs each resolve DEFER
before the next update starts. -/
def deferEvents (t : Nat) : List Obj → List Ev
  | [] => []
  | p :: rest =>
    Ev.update p [] :: Ev.resolveUpdate (t + 1) DiffR.defer :: deferEvents (t + 1) rest

def c3events (t : Nat) (patches : List Obj) (final : Obj) : List Ev :=
  deferEvents t patches
    ++ [Ev.update final [], Ev.resolveUpdate (t + patches.length + 1) DiffR.commit]

theorem runE_append (l1 l2 : List Ev) : ∀ s, runE s (l1 ++ l2) = runE (runE s l1) l2 := by
  induction l1 with
  | nil => intro s; rfl
  | cons e rest ih => intro s; exact ih (step s e)

theorem c3_pair (P : Obj) (staged : Option Obj) (t g dr : Nat) (patch : Obj) :
    runE (c3state P staged t g dr) [Ev.update patch [], Ev.resolveUpdate (t + 1) DiffR.defer]
      = c3state P (some (assignObj (staged.getD P) patch)) (t + 1) (g + 1) (dr + 1) := by
  show step (step (c3state P staged t g dr) (Ev.update patch []))
      (Ev.resolveUpdate (t + 1) DiffR.defer) = _
  rw [step_update_ready _ _ _ rfl rfl]
  unfold step
  simp only [c3state]
  rw [List.nil_append, List.find?_cons_of_pos _ (by simp)]
  dsimp only
  rw [show (List.filter (fun p2 => !decide (p2.ticket = t + 1))
      [(⟨t + 1, P, assignObj (staged.getD P) patch⟩ : Pending)]) = [] from by simp]
  rw [show staleResult _ (t + 1) DiffR.defer = DiffR.defer from by
    unfold staleResult; split <;> rfl]
  rw [if_pos rfl]
  rw [if_neg (fun h => by simp [pushList, bumpGen] at h)]
  rfl

theorem c3_commit_pair (P : Obj) (staged : Option Obj) (t g dr : Nat) (final : Obj) :
    runE (c3state P staged t g dr)
        [Ev.update final [], Ev.resolveUpdate (t + 1) DiffR.commit]
      = { c3state P none (t + 1) (g + 1) (dr + 1) with
            props := assignObj (staged.getD P) final, prevProps := some P } := by
  show step (step (c3state P staged t g dr) (Ev.update final []))
      (Ev.resolveUpdate (t + 1) DiffR.commit) = _
  rw [step_update_ready _ _ _ rfl rfl]
  unfold step
  simp only [c3state]
  rw [List.nil_append, List.find?_cons_of_pos _ (by simp)]
  dsimp only
  rw [show (List.filter (fun p2 => !decide (p2.ticket = t + 1))
      [(⟨t + 1, P, assignObj (staged.getD P) final⟩ : Pending)]) = [] from by simp]
  rw [show staleResult _ (t + 1) DiffR.commit = DiffR.commit from by
    unfold staleResult
    rw [if_neg (by simp)]]
  rw [if_neg (by simp)]
  rw [if_neg (fun h => by simp [commitProps, pushList, bumpGen] at h)]
  rfl

def stagedAfter (P : Obj) : Option Obj → List Obj → Option Obj
  | staged, [] => staged
  | staged, p :: rest => stagedAfter P (some (assignObj (staged.getD P) p)) rest

theorem stagedAfter_getD (P : Obj) :
    ∀ (ps : List Obj) (staged : Option Obj),
      (stagedAfter P staged ps).getD P = List.foldl assignObj (staged.getD P) ps
  | [], staged => rfl
  | p :: rest, staged => by
    rw [stagedAfter, List.foldl_cons]
    exact stagedAfter_getD P rest (some (assignObj (staged.getD P) p))

theorem deferEvents_run (patches : List Obj) :
    ∀ (P : Obj) (staged : Option Obj) (t g dr : Nat),
      runE (c3state P staged t g dr) (deferEvents t patches)
        = c3state P (stagedAfter P staged patches)
            (t + patches.length) (g + patches.length) (dr + patches.length) := by
  induction patches with
  | nil =>
    intro P staged t g dr
    rfl
  | cons p rest ih =>
    intro P staged t g dr
    rw [show deferEvents t (p :: rest)
        = [Ev.update p [], Ev.resolveUpdate (t + 1) DiffR.defer] ++ deferEvents (t + 1) rest
        from rfl]
    rw [runE_append, c3_pair, ih]
    rw [show stagedAfter P staged (p :: rest)
        = stagedAfter P (some (assignObj (staged.getD P) p)) rest from rfl]
    have e1 : t + 1 + rest.length = t + (p :: rest).length := by
      rw [List.length_cons]; omega
    have e2 : g + 1 + rest.length = g + (p :: rest).length := by
      rw [List.length_cons]; omega
    have e3 : dr + 1 + rest.length = dr + (p :: rest).length := by
      rw [List.length_cons]; omega
    rw [e1, e2, e3]

/-- Every event of the defer run plus the final update is either an `update`
or a DEFER resolution, both of which leave `props` untouched. -/
def preservesProps : Ev → Prop
  | Ev.update _ _ => True
  | Ev.resolveUpdate _ r => r = DiffR.defer
  | _ => False

theorem step_preserves_props (s : CompM) (e : Ev) (h : preservesProps e) :
    (step s e).props = s.props := by
  cases e with
  | update patch queued =>
    unfold step
    dsimp only
    repeat' split
    all_goals rfl
  | resolveUpdate t r =>
    have hr : r = DiffR.defer := h
    subst hr
    unfold step
    dsimp only
    cases hf : s.pendingUpdates.find? (fun p => decide (p.ticket = t)) with
    | none => rfl
    | some p =>
      dsimp only
      rw [show staleResult { s with
          pendingUpdates := s.pendingUpdates.filter (fun p2 => !decide (p2.ticket = t)) } t
          DiffR.defer = DiffR.defer from by unfold staleResult; split <;> rfl]
      rw [if_pos rfl]
      repeat' split
      all_goals rfl
  | startInitialDiff queued => cases h
  | resolveInitialDiff t r => cases h
  | resolvePre t => cases h
  | hostReady => cases h
  | destroy => cases h

theorem runE_preserves_props :
    ∀ (evs : List Ev) (s : CompM), (∀ e ∈ evs, preservesProps e) →
      (runE s evs).props = s.props
  | [], s, _ => rfl
  | e :: rest, s, h => by
    rw [show runE s (e :: rest) = runE (step s e) rest from rfl]
    rw [runE_preserves_props rest (step s e)
      (fun e2 he2 => h e2 (List.mem_cons_of_mem _ he2))]
    exact step_preserves_props s e (h e (List.mem_cons_self _ _))

theorem deferEvents_preserve :
    ∀ (t : Nat) (ps : List Obj), ∀ e ∈ deferEvents t ps, preservesProps e
  | t, [], e, h => by cases h
  | t, p :: rest, e, h => by
    rw [show deferEvents t (p :: rest)
        = Ev.update p [] :: Ev.resolveUpdate (t + 1) DiffR.defer :: deferEvents (t + 1) rest
        from rfl] at h
    cases h with
    | head => exact trivial
    | tail _ h2 =>
      cases h2 with
      | head => exact rfl
      | tail _ h3 => exact deferEvents_preserve (t + 1) rest e h3

/-- C3: starting from a component whose props were last committed as `P`
(so `stagedProps` is null), any run of updates whose diffs all resolve DEFER
followed by one whose diff commits leaves `props` equal to `P` at every
point before the committing resolution; after it, `props` is the shallow
merge `{...P, ...patch_1, ..., ...patch_n, ...final}`, `prevProps` equals
`P` (computed at commit time from the last committed props), and
`stagedProps` is null. -/
theorem c3_staging_isolation (P : Obj) (patches : List Obj) (final : Obj)
    (t g dr : Nat) :
    (∀ n, (runE (c3state P none t g dr)
        ((deferEvents t patches ++ [Ev.update final []]).take n)).props = P)
    ∧ (runE (c3state P none t g dr) (c3events t patches final)).props
        = List.foldl assignObj P (patches ++ [final])
    ∧ (runE (c3state P none t g dr) (c3events t patches final)).prevProps = some P
    ∧ (runE (c3state P none t g dr) (c3events t patches final)).stagedProps = none := by
  have hrun : runE (c3state P none t g dr) (c3events t patches final)
      = { c3state P none (t + patches.length + 1) (g + patches.length + 1)
            (dr + patches.length + 1) with
          props := assignObj ((stagedAfter P none patches).getD P) final
        , prevProps := some P } := by
    unfold c3events
    rw [runE_append, deferEvents_run, c3_commit_pair]
  refine ⟨?_, ?_, ?_, ?_⟩
  · intro n
    rw [runE_preserves_props]
    · rfl
    · intro e he
      have := List.take_subset n _ he
      rw [List.mem_append] at this
      cases this with
      | inl h1 => exact deferEvents_preserve t patches e h1
      | inr h1 =>
        cases h1 with
        | head => exact trivial
        | tail _ h2 => cases h2
  · rw [hrun]
    show assignObj ((stagedAfter P none patches).getD P) final = _
    rw [stagedAfter_getD, List.foldl_append, List.foldl_cons, List.foldl_nil]
    rfl
  · rw [hrun]
  · rw [hrun]
    rfl

/-! ### C9: destroy (core.js lines 752-803)

`destroy()` is modelled over the component state it touches; callables are
identified by numbers and invoking one emits a `cleanupRun` event; host calls
emit `detachNode`/`destroyNode` events (`node.parent ?? rootNode` is assumed
non-null and the host to provide `destroyNode`, as the reference hosts do).
The source recurses into children; children of children play no role in the
second-destroy claim (children are cleared by the first destroy), so one
level of the tree is modelled, each child destroyed by the same procedure. -/

inductive DEv where
  | cleanupRun (id : Nat)
  | detachNode (node : Nat)
  | destroyNode (node : Nat)
deriving DecidableEq

structure CompD where
  destroyed : Bool
  cmds : Buffer Int
  cleanups : List (String × List Nat)
  lifetimeCleanups : List Nat
  initCleanup : Option Nat
  node : Option Nat
  hostPresent : Bool
deriving DecidableEq

structure CompT where
  core : CompD
  children : List CompD
deriving DecidableEq

def nodeEvents (c : CompD) : List DEv :=
  match c.node, c.hostPresent with
  | some n, true => [DEv.detachNode n, DEv.destroyNode n]
  | _, _ => []

/-- The cleanup part of `destroy`: all per-key combined cleanups (each
invoking its collected callables in LIFO order), then the behavior lifetime
cleanups in reverse order, then the legacy init cleanup, then the node
detach/destroy — clearing each store as the source does. -/
def cleanupPhase (c : CompD) : CompD × List DEv :=
  let perKey := c.cleanups.flatMap (fun kv => kv.2.reverse.map DEv.cleanupRun)
  let life := c.lifetimeCleanups.reverse.map DEv.cleanupRun
  let ini := match c.initCleanup with
    | some i => [DEv.cleanupRun i]
    | none => []
  ({ c with cleanups := [], lifetimeCleanups := [], initCleanup := none },
   perKey ++ life ++ ini ++ nodeEvents c)

def destroyCore (c : CompD) : CompD × List DEv :=
  cleanupPhase { c with destroyed := true, cmds := clearedBuffer c.cmds }

/-- `Component.destroy()`: set `_destroyed`, drop pending ops, destroy the
children first and clear the set, then run the cleanup phases and detach the
node.  Note the source never clears `this.node` and has no destroyed-guard. -/
def destroyComp (t : CompT) : CompT × List DEv :=
  let c0 : CompD := { t.core with destroyed := true, cmds := clearedBuffer t.core.cmds }
  let childEvs := t.children.flatMap (fun ch => (destroyCore ch).2)
  let r := cleanupPhase c0
  (⟨r.1, []⟩, childEvs ++ r.2)

def c9comp : CompT :=
  ⟨⟨false, oneOpBuffer "x", [("k", [1, 2])], [3], some 4, some 7, true⟩, []⟩

/-- C9 counterexample: after a completed `destroy()` of a component with an
attached node, a second `destroy()` issues `detachNode` and `destroyNode` to
the host again — `destroy` never clears `this.node` and has no
destroyed-guard — so the second destroy is not free of host operations. -/
theorem c9_second_destroy_repeats_host_calls :
    (destroyComp (destroyComp c9comp).1).2 = [DEv.detachNode 7, DEv.destroyNode 7]
    ∧ (destroyComp (destroyComp c9comp).1).2 ≠ [] := by
  refine ⟨?_, ?_⟩ <;> decide

theorem nodeEvents_no_cleanup (c : CompD) : ∀ e ∈ nodeEvents c, ∀ i, e ≠ DEv.cleanupRun i := by
  intro e he i
  unfold nodeEvents at he
  split at he
  · simp only [List.mem_cons, List.not_mem_nil, or_false] at he
    rcases he with rfl | rfl <;> simp
  · cases he

/-- C9 amended: `destroy()` is idempotent on the component's own state — a
second destroy after a completed one leaves the state exactly as it was and
invokes no cleanups — but it is not free of host operations: when the
component has a node and a host, the second destroy re-issues `detachNode`
and `destroyNode` for that node. -/
theorem c9_destroy_second_state (tc : CompT) :
    (destroyComp (destroyComp tc).1).1 = (destroyComp tc).1
    ∧ (destroyComp (destroyComp tc).1).2 = nodeEvents (destroyComp tc).1.core
    ∧ (∀ e ∈ (destroyComp (destroyComp tc).1).2, ∀ i, e ≠ DEv.cleanupRun i) := by
  refine ⟨rfl, rfl, ?_⟩
  intro e he i
  exact nodeEvents_no_cleanup _ e he i

end Ride
